import Mathlib

/-!
Verification of the hamming-rust repository: a bit-packed vector (BitVec),
a single-error-correcting Hamming code over it, and the GUS frame protocol.

The Rust code is embedded shallowly.  Machine bytes (u8) are natural numbers;
the bitwise operators mirror the source expressions.  A Rust operation that can
panic (an out-of-range Vec index or slice, or an empty random range) is
modelled with an outer Option: none stands for the panic.  A Rust Result is
modelled with Except.  In-place mutation of a BitVec is modelled by returning
the post-state next to the Result value.
-/

namespace HammingRust

instance {ε α : Type} [DecidableEq ε] [DecidableEq α] : DecidableEq (Except ε α)
  | Except.error a, Except.error b =>
    if h : a = b then isTrue (by rw [h]) else isFalse (fun hc => h (Except.error.inj hc))
  | Except.error _, Except.ok _ => isFalse (fun hc => Except.noConfusion hc)
  | Except.ok _, Except.error _ => isFalse (fun hc => Except.noConfusion hc)
  | Except.ok a, Except.ok b =>
    if h : a = b then isTrue (by rw [h]) else isFalse (fun hc => h (Except.ok.inj hc))

/-- The error type of the Rust enum BitVecError. -/
inductive BitVecError where
  | IndexOutOfBounds
deriving DecidableEq

/-- The Rust struct BitVec: bits packed 8 per byte, most significant bit
first, together with the logical bit length. -/
structure BitVec where
  data : List Nat
  len : Nat
deriving DecidableEq

namespace BitVec

/-- BitVec::new. -/
def new : BitVec := ⟨[], 0⟩

/-- BitVec::into_inner. -/
def into_inner (bv : BitVec) : List Nat := bv.data

/-- BitVec::from_bytes: no validation of the bit length is performed. -/
def from_bytes (bytes : List Nat) (bit_length : Nat) : BitVec :=
  ⟨bytes, bit_length⟩

/-- BitVec::with_capacity: capacity is not observable in the model. -/
def with_capacity (_bits : Nat) : BitVec := ⟨[], 0⟩

/-- BitVec::zeros. -/
def zeros (bits : Nat) : BitVec :=
  ⟨List.replicate ((bits + 7) / 8) 0, bits⟩

/-- BitVec::ones. -/
def ones (bits : Nat) : BitVec :=
  ⟨List.replicate ((bits + 7) / 8) 255, bits⟩

/-- BitVec::push.  The write data[byte_index] |= 1 << bit_index panics if
byte_index is out of range, hence the Option. -/
def push (bv : BitVec) (bit : Bool) : Option BitVec :=
  let data := if bv.len % 8 == 0 then bv.data ++ [0] else bv.data
  let byte_index := bv.len / 8
  let bit_index := 7 - bv.len % 8
  if bit then
    match data.get? byte_index with
    | none => none
    | some b => some ⟨data.set byte_index (b ||| (1 <<< bit_index)), bv.len + 1⟩
  else
    some ⟨data, bv.len + 1⟩

/-- BitVec::get.  Returns some none when index is at or beyond len (the Rust
None); the outer none is the panic of data[byte_index] on a vector whose
byte storage is shorter than its declared bit length. -/
def get (bv : BitVec) (index : Nat) : Option (Option Bool) :=
  if bv.len ≤ index then
    some none
  else
    match bv.data.get? (index / 8) with
    | none => none
    | some b => some (some (((b >>> (7 - index % 8)) &&& 1) == 1))

/-- BitVec::set.  The pair carries the post-state of the vector next to the
Rust Result; the outer none is the panic of the byte indexing. -/
def set (bv : BitVec) (index : Nat) (value : Bool) :
    Option (BitVec × Except BitVecError Unit) :=
  if bv.len ≤ index then
    some (bv, Except.error BitVecError.IndexOutOfBounds)
  else
    let byte_index := index / 8
    let bit_index := 7 - index % 8
    match bv.data.get? byte_index with
    | none => none
    | some b =>
      -- the u8 complement of the one-bit mask is 255 xor the mask
      let b2 := if value then b ||| (1 <<< bit_index)
                else b &&& (255 ^^^ (1 <<< bit_index))
      some (⟨bv.data.set byte_index b2, bv.len⟩, Except.ok ())

/-- BitVec::toggle. -/
def toggle (bv : BitVec) (index : Nat) :
    Option (BitVec × Except BitVecError Unit) :=
  if bv.len ≤ index then
    some (bv, Except.error BitVecError.IndexOutOfBounds)
  else
    let byte_index := index / 8
    let bit_index := 7 - index % 8
    match bv.data.get? byte_index with
    | none => none
    | some b =>
      some (⟨bv.data.set byte_index (b ^^^ (1 <<< bit_index)), bv.len⟩, Except.ok ())

/-- Loop body of BitVec::to_vec: get(i).unwrap() for each index, where both
the unwrap of a Rust None and a byte-indexing panic abort. -/
def to_vecAux (bv : BitVec) : List Nat → Option (List Bool)
  | [] => some []
  | i :: rest =>
    match bv.get i with
    | some (some b) => (to_vecAux bv rest).map (fun v => b :: v)
    | _ => none

/-- BitVec::to_vec. -/
def to_vec (bv : BitVec) : Option (List Bool) :=
  to_vecAux bv (List.range bv.len)

/-- One chunk of BitVec::from_vec: byte |= 1 << (7 - i) for the set bits. -/
def chunkByteAux : List Bool → Nat → Nat → Nat
  | [], _, byte => byte
  | b :: rest, i, byte =>
    chunkByteAux rest (i + 1) (if b then byte ||| (1 <<< (7 - i)) else byte)

/-- The chunks(8) iterator of BitVec::from_vec. -/
def chunks8 : List Bool → List (List Bool)
  | [] => []
  | a :: b :: c :: d :: e :: f :: g :: h :: rest =>
    [a, b, c, d, e, f, g, h] :: chunks8 rest
  | l => [l]

/-- BitVec::from_vec. -/
def from_vec (vec : List Bool) : BitVec :=
  ⟨(chunks8 vec).map (fun c => chunkByteAux c 0 0), vec.length⟩

/-- BitVec::true_len. -/
def true_len (bv : BitVec) : Nat := bv.data.length

end BitVec

/-- The error type of the Rust enum HammingError. -/
inductive HammingError where
  | UnexpectedOutOfBounds
deriving DecidableEq

namespace Hamming

/-- The while loop of calculate_parity_count, with explicit fuel (the loop
terminates well before the fuel used below runs out, see
parityCountLoop_eq). -/
def parityCountLoop (data_len_bits : Nat) : Nat → Nat → Nat
  | 0, parity_count => parity_count
  | fuel + 1, parity_count =>
    if 1 <<< parity_count < data_len_bits + parity_count + 1 then
      parityCountLoop data_len_bits fuel (parity_count + 1)
    else
      parity_count

/-- HammingCodeBase::calculate_parity_count. -/
def calculate_parity_count (data_len_bits : Nat) : Nat :=
  parityCountLoop data_len_bits (data_len_bits + 2) 0

/-- usize::is_power_of_two: true exactly for the powers of two. -/
def isPowerOfTwo (n : Nat) : Bool :=
  (List.range (n + 1)).any (fun k => n == 2 ^ k)

/-- Loop body of basic_compute_parity: sum the set bits at the 1-indexed
positions selected by the parity mask. -/
def paritySumAux (codeword : BitVec) (parity_mask : Nat) :
    List Nat → Nat → Option (Except HammingError Nat)
  | [], parity_sum => some (Except.ok parity_sum)
  | i :: rest, parity_sum =>
    if (i + 1) &&& parity_mask ≠ 0 then
      match codeword.get i with
      | none => none
      | some none => some (Except.error HammingError.UnexpectedOutOfBounds)
      | some (some b) =>
        paritySumAux codeword parity_mask rest (if b then parity_sum + 1 else parity_sum)
    else
      paritySumAux codeword parity_mask rest parity_sum

/-- HammingCodeBase::basic_compute_parity. -/
def basic_compute_parity (codeword : BitVec) (parity_mask : Nat) :
    Option (Except HammingError Bool) :=
  match paritySumAux codeword parity_mask (List.range codeword.len) 0 with
  | none => none
  | some (Except.error e) => some (Except.error e)
  | some (Except.ok s) => some (Except.ok (s % 2 == 1))

/-- First loop of Hamming::encode: place the data bits at the positions whose
1-indexed value is not a power of two. -/
def fillData (data : BitVec) : List Nat → BitVec → Nat → Option (Except HammingError BitVec)
  | [], codeword, _ => some (Except.ok codeword)
  | i :: rest, codeword, data_index =>
    if isPowerOfTwo (i + 1) then
      fillData data rest codeword data_index
    else
      match data.get data_index with
      | none => none
      | some none => some (Except.error HammingError.UnexpectedOutOfBounds)
      | some (some b) =>
        match codeword.set i b with
        | none => none
        | some (_, Except.error _) => some (Except.error HammingError.UnexpectedOutOfBounds)
        | some (cw, Except.ok _) => fillData data rest cw (data_index + 1)

/-- Second loop of Hamming::encode: compute and store each parity bit. -/
def fillParity : List Nat → BitVec → Option (Except HammingError BitVec)
  | [], codeword => some (Except.ok codeword)
  | i :: rest, codeword =>
    match basic_compute_parity codeword (1 <<< i) with
    | none => none
    | some (Except.error e) => some (Except.error e)
    | some (Except.ok parity) =>
      match codeword.set ((1 <<< i) - 1) parity with
      | none => none
      | some (_, Except.error _) => some (Except.error HammingError.UnexpectedOutOfBounds)
      | some (cw, Except.ok _) => fillParity rest cw

/-- Hamming::encode. -/
def encode (data : BitVec) : Option (Except HammingError BitVec) :=
  let data_len_bits := data.len
  let parity_count := calculate_parity_count data_len_bits
  let total_len := data_len_bits + parity_count
  match fillData data (List.range total_len) (BitVec.zeros total_len) 0 with
  | none => none
  | some (Except.error e) => some (Except.error e)
  | some (Except.ok codeword) => fillParity (List.range parity_count) codeword

/-- The search (0..).find(1 << r >= n + 1) of Hamming::decode, with fuel
(the first hit is at r <= n, below the fuel used in decode). -/
def findRLoop (n : Nat) : Nat → Nat → Nat
  | 0, r => r
  | fuel + 1, r =>
    if n + 1 ≤ 1 <<< r then r else findRLoop n fuel (r + 1)

/-- Syndrome loop of Hamming::decode: add 1 << i for every failing check. -/
def syndromeLoop (codeword : BitVec) : List Nat → Nat → Option (Except HammingError Nat)
  | [], error_pos => some (Except.ok error_pos)
  | i :: rest, error_pos =>
    match basic_compute_parity codeword (1 <<< i) with
    | none => none
    | some (Except.error e) => some (Except.error e)
    | some (Except.ok true) => syndromeLoop codeword rest (error_pos + (1 <<< i))
    | some (Except.ok false) => syndromeLoop codeword rest error_pos

/-- Extraction loop of Hamming::decode: push every bit whose 1-indexed
position is not a power of two. -/
def extractLoop (corrected : BitVec) : List Nat → BitVec → Option (Except HammingError BitVec)
  | [], data => some (Except.ok data)
  | i :: rest, data =>
    if isPowerOfTwo (i + 1) then
      extractLoop corrected rest data
    else
      match corrected.get i with
      | none => none
      | some none => some (Except.error HammingError.UnexpectedOutOfBounds)
      | some (some b) =>
        match data.push b with
        | none => none
        | some d2 => extractLoop corrected rest d2

/-- Hamming::decode. -/
def decode (codeword : BitVec) : Option (Except HammingError (BitVec × Nat)) :=
  let n := codeword.len
  let r := findRLoop n (n + 1) 0
  match syndromeLoop codeword (List.range r) 0 with
  | none => none
  | some (Except.error e) => some (Except.error e)
  | some (Except.ok error_pos) =>
    let step : Option (Except HammingError BitVec) :=
      if error_pos > 0 ∧ error_pos - 1 < codeword.len then
        match codeword.get (error_pos - 1) with
        | none => none
        | some none => some (Except.error HammingError.UnexpectedOutOfBounds)
        | some (some current) =>
          match codeword.set (error_pos - 1) (!current) with
          | none => none
          | some (_, Except.error _) => some (Except.error HammingError.UnexpectedOutOfBounds)
          | some (cw, Except.ok _) => some (Except.ok cw)
      else some (Except.ok codeword)
    match step with
    | none => none
    | some (Except.error e) => some (Except.error e)
    | some (Except.ok corrected) =>
      match extractLoop corrected (List.range corrected.len) (BitVec.with_capacity (n - r)) with
      | none => none
      | some (Except.error e) => some (Except.error e)
      | some (Except.ok data) => some (Except.ok (data, error_pos))

end Hamming

/-- std::mem::size_of::<usize>() fixed at 8 bytes (the 64-bit target). -/
def USIZE_SIZE : Nat := 8

/-- usize::to_le_bytes. -/
def leBytes (w x : Nat) : List Nat :=
  (List.range w).map (fun i => x / 256 ^ i % 256)

/-- usize::from_le_bytes of the first 8 bytes of a list. -/
def fromLE (bytes : List Nat) : Nat :=
  ((List.range 8).map (fun i => bytes.getD i 0 * 256 ^ i)).sum

/-- The Rust struct Length of the GUS header. -/
structure Length where
  data_length : Nat
  bits_length : Nat
deriving DecidableEq

/-- Length::to_le_bytes. -/
def Length.to_le_bytes (l : Length) : List Nat :=
  leBytes USIZE_SIZE l.data_length ++ leBytes USIZE_SIZE l.bits_length

/-- Length::from_le_bytes; in decode the argument is always the 16-byte
header slice, so the try_into conversions cannot fail. -/
def Length.from_le_bytes (bytes : List Nat) : Length :=
  ⟨fromLE (bytes.take USIZE_SIZE), fromLE ((bytes.drop USIZE_SIZE).take USIZE_SIZE)⟩

/-- The distinct error values produced with anyhow in GUSProtocol::decode,
one constructor per distinct message string. -/
inductive GUSError where
  | InvalidDataLength
  | InvalidProtocolName
  | UnsupportedVersion
  | DataLengthMismatch
  | HammingDecodeFailed
deriving DecidableEq

/-- The Rust struct GUSProtocol. -/
structure GUSProtocol where
  protocol_name : List Nat
  version : Nat
  data : BitVec
deriving DecidableEq

namespace GUSProtocol

def CURRENT_VERSION : Nat := 1

/-- The byte literal GUS. -/
def PROTOCOL_NAME : List Nat := [71, 85, 83]

/-- GUSProtocol::new (the HammingError result in the source is always Ok). -/
def new (data : BitVec) : GUSProtocol :=
  ⟨PROTOCOL_NAME, CURRENT_VERSION, data⟩

/-- GUSProtocol::encode.  The Rust function draws from the ambient
thread-local RNG rand::rng(): a 50 percent coin decides whether to corrupt,
and random_range(0..len) picks the bit.  Those two draws are passed here as
the explicit arguments corrupt and bit_to_corrupt; random_range panics on an
empty range, modelled by none when the codeword is empty. -/
def encode (self : GUSProtocol) (corrupt : Bool) (bit_to_corrupt : Nat) :
    Option (Except HammingError (List Nat)) :=
  match Hamming.encode self.data with
  | none => none
  | some (Except.error e) => some (Except.error e)
  | some (Except.ok encoded0) =>
    let afterCorrupt : Option (Except HammingError BitVec) :=
      if corrupt then
        if encoded0.len = 0 then none
        else
          match encoded0.toggle bit_to_corrupt with
          | none => none
          | some (_, Except.error _) => some (Except.error HammingError.UnexpectedOutOfBounds)
          | some (cw, Except.ok _) => some (Except.ok cw)
      else some (Except.ok encoded0)
    match afterCorrupt with
    | none => none
    | some (Except.error e) => some (Except.error e)
    | some (Except.ok encoded_data) =>
      let length : Length := ⟨encoded_data.true_len, encoded_data.len⟩
      some (Except.ok (self.protocol_name ++ [self.version] ++
        length.to_le_bytes ++ encoded_data.into_inner))

/-- GUSProtocol::decode.  The slice encoded_data[20 .. 20 + data_length]
panics (outer none) when fewer bytes remain than the declared length; the
explicit mismatch check after it can then never fire. -/
def decode (encoded_data : List Nat) : Option (Except GUSError (GUSProtocol × Bool)) :=
  if encoded_data.length < 4 + USIZE_SIZE * 2 then
    some (Except.error GUSError.InvalidDataLength)
  else
    let protocol_name := encoded_data.take 3
    if protocol_name ≠ PROTOCOL_NAME then
      some (Except.error GUSError.InvalidProtocolName)
    else
      let version := encoded_data.getD 3 0
      if version ≠ CURRENT_VERSION then
        some (Except.error GUSError.UnsupportedVersion)
      else
        let length_bytes := (encoded_data.drop 4).take (USIZE_SIZE * 2)
        let length := Length.from_le_bytes length_bytes
        if encoded_data.length < 4 + USIZE_SIZE * 2 + length.data_length then
          none
        else
          let data := (encoded_data.drop (4 + USIZE_SIZE * 2)).take length.data_length
          if data.length ≠ length.data_length then
            some (Except.error GUSError.DataLengthMismatch)
          else
            let bv := BitVec.from_bytes data length.bits_length
            match Hamming.decode bv with
            | none => none
            | some (Except.error _) => some (Except.error GUSError.HammingDecodeFailed)
            | some (Except.ok dec) =>
              some (Except.ok (⟨protocol_name, version, dec.1⟩, dec.2 != 0))

end GUSProtocol

/-! ## Abstraction layer: reading bits, the storage invariant -/

/-- Total reader of bit i of a BitVec; bytes beyond the storage read as 0. -/
def bitAt (bv : BitVec) (i : Nat) : Bool :=
  (bv.data.getD (i / 8) 0).testBit (7 - i % 8)

/-- The storage invariant of the data model: every index below len addresses
an existing storage byte. -/
def wf (bv : BitVec) : Prop := bv.len ≤ 8 * bv.data.length

instance (bv : BitVec) : Decidable (wf bv) := by unfold wf; infer_instance

/-- All bits at or beyond len read as zero; holds for vectors built by
pushes, where the unused tail of the last byte is zero. -/
def clean (bv : BitVec) : Prop := ∀ i, bv.len ≤ i → bitAt bv i = false

/-- The logical bit sequence stored in a BitVec. -/
def bits (bv : BitVec) : List Bool := (List.range bv.len).map (bitAt bv)

theorem bits_length (bv : BitVec) : (bits bv).length = bv.len := by
  simp [bits]

/-- The beq test of the source, ((b >>> k) &&& 1) == 1, is testBit. -/
theorem shift_and_beq (b k : Nat) : (((b >>> k) &&& 1) == 1) = b.testBit k := by
  have h1 : (b >>> k) &&& 1 = (b >>> k) % 2 := Nat.and_one_is_mod _
  have h2 : Nat.testBit b k = ((b >>> k) % 2 != 0) := by
    simp only [Nat.testBit, Nat.one_and_eq_mod_two]
  rw [h1, h2]
  rcases Nat.mod_two_eq_zero_or_one (b >>> k) with h | h <;> rw [h] <;> rfl

theorem get?_of_lt {l : List Nat} {n : Nat} (h : n < l.length) :
    l.get? n = some (l.getD n 0) := by
  simp [List.getElem?_eq_getElem h]

theorem get?_of_le {l : List Nat} {n : Nat} (h : l.length ≤ n) : l.get? n = none :=
  List.get?_eq_none.mpr h

theorem getElem?_of_lt {l : List Nat} {n : Nat} (h : n < l.length) :
    l[n]? = some (l.getD n 0) := by
  simp [List.getElem?_eq_getElem h]

theorem getD_set_self {l : List Nat} {m : Nat} (a : Nat) (h : m < l.length) :
    (l.set m a).getD m 0 = a := by
  simp [List.getElem?_set_self (by simpa using h)]

theorem getD_set_ne {l : List Nat} {m : Nat} (a : Nat) {j : Nat} (h : m ≠ j) :
    (l.set m a).getD j 0 = l.getD j 0 := by
  simp [List.getElem?_set_ne h]

theorem getD_append_lt {l : List Nat} {j : Nat} (x : Nat) (h : j < l.length) :
    (l ++ [x]).getD j 0 = l.getD j 0 := by
  simp [List.getElem?_append_left h]

theorem getD_zero_of_le {l : List Nat} {j : Nat} (h : l.length ≤ j) : l.getD j 0 = 0 := by
  simp [List.getElem?_eq_none (by simpa using h)]

/-! Bit arithmetic of the three byte updates used by set, toggle and push. -/

theorem testBit_set_true (b m k : Nat) :
    (b ||| (1 <<< m)).testBit k = (b.testBit k || decide (m = k)) := by
  rw [Nat.one_shiftLeft, Nat.testBit_or, Nat.testBit_two_pow]

theorem testBit_set_false (b m k : Nat) (hk : k < 8) :
    (b &&& (255 ^^^ (1 <<< m))).testBit k = (b.testBit k && !decide (m = k)) := by
  rw [Nat.one_shiftLeft, Nat.testBit_and, Nat.testBit_xor]
  have h255 : (255 : Nat) = 2 ^ 8 - 1 := by norm_num
  rw [h255, Nat.testBit_two_pow_sub_one, Nat.testBit_two_pow]
  simp [hk]

theorem testBit_toggle (b m k : Nat) :
    (b ^^^ (1 <<< m)).testBit k = (b.testBit k).xor (decide (m = k)) := by
  rw [Nat.one_shiftLeft, Nat.testBit_xor, Nat.testBit_two_pow]

/-- Two bit indices agree exactly when byte index and in-byte offset agree. -/
theorem bit_index_inj {i j : Nat} (hd : j / 8 = i / 8) (hm : 7 - j % 8 = 7 - i % 8) :
    j = i := by
  have hi : i % 8 < 8 := Nat.mod_lt _ (by omega)
  have hj : j % 8 < 8 := Nat.mod_lt _ (by omega)
  omega

/-! Behaviour of get, set, toggle and push under the invariant. -/

theorem get_lt {bv : BitVec} {i : Nat} (hwf : wf bv) (hi : i < bv.len) :
    bv.get i = some (some (bitAt bv i)) := by
  have hb : i / 8 < bv.data.length := by
    have := hwf
    unfold wf at this
    omega
  simp only [BitVec.get, if_neg (by omega : ¬ bv.len ≤ i), get?_of_lt hb,
    shift_and_beq]
  rfl

theorem get_oob {bv : BitVec} {i : Nat} (hi : bv.len ≤ i) : bv.get i = some none := by
  simp [BitVec.get, hi]

theorem set_oob {bv : BitVec} {i : Nat} (v : Bool) (hi : bv.len ≤ i) :
    bv.set i v = some (bv, Except.error BitVecError.IndexOutOfBounds) := by
  simp [BitVec.set, hi]

theorem toggle_oob {bv : BitVec} {i : Nat} (hi : bv.len ≤ i) :
    bv.toggle i = some (bv, Except.error BitVecError.IndexOutOfBounds) := by
  simp [BitVec.toggle, hi]

theorem set_okb {bv : BitVec} {i : Nat} (v : Bool) (hi : i < bv.len)
    (hb : i / 8 < bv.data.length) :
    ∃ bv2, bv.set i v = some (bv2, Except.ok ()) ∧
      bv2.len = bv.len ∧ bv2.data.length = bv.data.length ∧
      ∀ j, bitAt bv2 j = if j = i then v else bitAt bv j := by
  refine ⟨⟨bv.data.set (i / 8)
      (if v then bv.data.getD (i / 8) 0 ||| 1 <<< (7 - i % 8)
       else bv.data.getD (i / 8) 0 &&& (255 ^^^ 1 <<< (7 - i % 8))), bv.len⟩,
    ?_, rfl, by simp, ?_⟩
  · simp only [BitVec.set, if_neg (by omega : ¬ bv.len ≤ i), get?_of_lt hb]
  · intro j
    by_cases hji : j = i
    · subst hji
      have hk : 7 - j % 8 < 8 := by omega
      simp only [bitAt, if_pos rfl, getD_set_self _ hb]
      cases v
      · simp [testBit_set_false _ _ _ hk]
      · simp [testBit_set_true]
    · simp only [bitAt, if_neg hji]
      by_cases hd : j / 8 = i / 8
      · have hm : 7 - j % 8 ≠ 7 - i % 8 := fun hm => hji (bit_index_inj hd hm)
        have hk : 7 - j % 8 < 8 := by omega
        have hm2 : ¬ (7 - i % 8 = 7 - j % 8) := fun h => hm h.symm
        rw [hd, getD_set_self _ hb]
        cases v
        · simp [testBit_set_false _ _ _ hk, hm2]
        · rw [if_pos rfl, testBit_set_true]
          simp [hm2]
      · rw [getD_set_ne _ (fun h => hd h.symm)]

theorem toggle_okb {bv : BitVec} {i : Nat} (hi : i < bv.len)
    (hb : i / 8 < bv.data.length) :
    ∃ bv2, bv.toggle i = some (bv2, Except.ok ()) ∧
      bv2.len = bv.len ∧ bv2.data.length = bv.data.length ∧
      ∀ j, bitAt bv2 j = if j = i then !(bitAt bv j) else bitAt bv j := by
  refine ⟨⟨bv.data.set (i / 8) (bv.data.getD (i / 8) 0 ^^^ 1 <<< (7 - i % 8)), bv.len⟩,
    ?_, rfl, by simp, ?_⟩
  · simp only [BitVec.toggle, if_neg (by omega : ¬ bv.len ≤ i), get?_of_lt hb]
  · intro j
    by_cases hji : j = i
    · subst hji
      simp only [bitAt, if_pos rfl, getD_set_self _ hb]
      rw [testBit_toggle]
      simp
    · simp only [bitAt, if_neg hji]
      by_cases hd : j / 8 = i / 8
      · have hm : 7 - j % 8 ≠ 7 - i % 8 := fun hm => hji (bit_index_inj hd hm)
        have hm2 : ¬ (7 - i % 8 = 7 - j % 8) := fun h => hm h.symm
        rw [hd, getD_set_self _ hb, testBit_toggle]
        simp [hm2]
      · rw [getD_set_ne _ (fun h => hd h.symm)]

theorem set_ok {bv : BitVec} {i : Nat} (v : Bool) (hwf : wf bv) (hi : i < bv.len) :
    ∃ bv2, bv.set i v = some (bv2, Except.ok ()) ∧
      bv2.len = bv.len ∧ bv2.data.length = bv.data.length ∧
      ∀ j, bitAt bv2 j = if j = i then v else bitAt bv j :=
  set_okb v hi (by unfold wf at hwf; omega)

theorem toggle_ok {bv : BitVec} {i : Nat} (hwf : wf bv) (hi : i < bv.len) :
    ∃ bv2, bv.toggle i = some (bv2, Except.ok ()) ∧
      bv2.len = bv.len ∧ bv2.data.length = bv.data.length ∧
      ∀ j, bitAt bv2 j = if j = i then !(bitAt bv j) else bitAt bv j :=
  toggle_okb hi (by unfold wf at hwf; omega)

/-- Reading any bit after the in-place or of a single bit into a byte list. -/
theorem bitAt_list_or (l : List Nat) (i j : Nat) (hb : i / 8 < l.length) :
    ((l.set (i / 8) ((l.getD (i / 8) 0) ||| 1 <<< (7 - i % 8))).getD (j / 8) 0).testBit
        (7 - j % 8) =
      if j = i then true else (l.getD (j / 8) 0).testBit (7 - j % 8) := by
  by_cases hji : j = i
  · subst hji
    rw [if_pos rfl, getD_set_self _ hb, testBit_set_true]
    simp
  · rw [if_neg hji]
    by_cases hd : j / 8 = i / 8
    · have hm2 : ¬ (7 - i % 8 = 7 - j % 8) :=
        fun h => hji (bit_index_inj hd h.symm)
      rw [hd, getD_set_self _ hb, testBit_set_true]
      simp [hm2]
    · rw [getD_set_ne _ (fun h => hd h.symm)]

theorem getD_append_self (l : List Nat) (x : Nat) : (l ++ [x]).getD l.length 0 = x := by
  simp [List.getElem?_append_right (Nat.le_refl _)]

theorem clean_of_formula {bv bv2 : BitVec} {b : Bool} (hlen : bv2.len = bv.len + 1)
    (hcl : clean bv)
    (hform : ∀ j, bitAt bv2 j = if j = bv.len then b else bitAt bv j) : clean bv2 := by
  intro i hi
  rw [hform i, if_neg (by omega)]
  exact hcl i (by omega)

theorem push_ok {bv : BitVec} (b : Bool) (hwf : wf bv) (hcl : clean bv) :
    ∃ bv2, bv.push b = some bv2 ∧ bv2.len = bv.len + 1 ∧ wf bv2 ∧ clean bv2 ∧
      ∀ j, bitAt bv2 j = if j = bv.len then b else bitAt bv j := by
  have hwfn : bv.len ≤ 8 * bv.data.length := hwf
  by_cases h8 : bv.len % 8 = 0
  · -- a fresh zero byte is appended before the write
    have hlt : bv.len / 8 < (bv.data ++ [0]).length := by
      simp only [List.length_append, List.length_cons, List.length_nil]
      omega
    have hread : ∀ j,
        (((bv.data ++ [0]).getD (j / 8) 0)).testBit (7 - j % 8) = bitAt bv j := by
      intro j
      by_cases hj : j / 8 < bv.data.length
      · rw [getD_append_lt _ hj]; rfl
      · have h1 : (bv.data ++ [0]).getD (j / 8) 0 = 0 := by
          by_cases he : j / 8 = bv.data.length
          · rw [he, getD_append_self]
          · exact getD_zero_of_le (by
              simp only [List.length_append, List.length_cons, List.length_nil]
              omega)
        rw [h1]
        unfold bitAt
        rw [getD_zero_of_le (by omega)]
    cases b
    · have hform : ∀ j, bitAt ⟨bv.data ++ [0], bv.len + 1⟩ j =
          if j = bv.len then false else bitAt bv j := by
        intro j
        by_cases hj : j = bv.len
        · subst hj
          rw [if_pos rfl]
          exact (hread _).trans (hcl _ (Nat.le_refl _))
        · rw [if_neg hj]
          exact hread j
      refine ⟨⟨bv.data ++ [0], bv.len + 1⟩, ?_, rfl, ?_,
        clean_of_formula rfl hcl hform, hform⟩
      · simp [BitVec.push, h8]
      · show bv.len + 1 ≤ 8 * (bv.data ++ [0]).length
        simp only [List.length_append, List.length_cons, List.length_nil]
        omega
    · have hform : ∀ j, bitAt
          ⟨(bv.data ++ [0]).set (bv.len / 8)
            (((bv.data ++ [0]).getD (bv.len / 8) 0) ||| 1 <<< (7 - bv.len % 8)),
           bv.len + 1⟩ j = if j = bv.len then true else bitAt bv j := by
        intro j
        have := bitAt_list_or (bv.data ++ [0]) bv.len j hlt
        unfold bitAt
        simp only at this ⊢
        rw [this]
        by_cases hj : j = bv.len
        · simp [hj]
        · rw [if_neg hj, if_neg hj]
          exact hread j
      refine ⟨_, ?_, rfl, ?_, clean_of_formula rfl hcl hform, hform⟩
      · simp only [BitVec.push]
        rw [if_pos (show (bv.len % 8 == 0) = true by simp [h8]), get?_of_lt hlt]
        rfl
      · show bv.len + 1 ≤ 8 * ((bv.data ++ [0]).set _ _).length
        simp only [List.length_set, List.length_append, List.length_cons, List.length_nil]
        omega
  · -- the last byte has room: no byte is appended
    have hlt : bv.len / 8 < bv.data.length := by omega
    cases b
    · have hform : ∀ j, bitAt ⟨bv.data, bv.len + 1⟩ j =
          if j = bv.len then false else bitAt bv j := by
        intro j
        by_cases hj : j = bv.len
        · subst hj
          rw [if_pos rfl]
          exact hcl _ (Nat.le_refl _)
        · rw [if_neg hj]; rfl
      refine ⟨⟨bv.data, bv.len + 1⟩, ?_, rfl, ?_,
        clean_of_formula rfl hcl hform, hform⟩
      · simp [BitVec.push, h8]
      · show bv.len + 1 ≤ 8 * bv.data.length
        omega
    · have hform : ∀ j, bitAt
          ⟨bv.data.set (bv.len / 8)
            ((bv.data.getD (bv.len / 8) 0) ||| 1 <<< (7 - bv.len % 8)),
           bv.len + 1⟩ j = if j = bv.len then true else bitAt bv j := by
        intro j
        have := bitAt_list_or bv.data bv.len j hlt
        unfold bitAt
        simp only at this ⊢
        rw [this]
      refine ⟨_, ?_, rfl, ?_, clean_of_formula rfl hcl hform, hform⟩
      · simp only [BitVec.push]
        rw [if_neg (show ¬ (bv.len % 8 == 0) = true by simp [h8]), get?_of_lt hlt]
        rfl
      · show bv.len + 1 ≤ 8 * (bv.data.set _ _).length
        simp only [List.length_set]
        omega

theorem getD_replicate (m j c : Nat) : (List.replicate m c).getD j 0 = if j < m then c else 0 := by
  simp only [List.getD_eq_getElem?_getD, List.getElem?_replicate]
  by_cases h : j < m
  · rw [if_pos h, if_pos h]; rfl
  · rw [if_neg h, if_neg h]; rfl

theorem bitAt_zeros (n i : Nat) : bitAt (BitVec.zeros n) i = false := by
  unfold bitAt BitVec.zeros
  simp only [getD_replicate]
  split <;> simp

theorem zeros_len (n : Nat) : (BitVec.zeros n).len = n := rfl

theorem wf_zeros (n : Nat) : wf (BitVec.zeros n) := by
  unfold wf BitVec.zeros
  simp only [List.length_replicate]
  omega

theorem clean_zeros (n : Nat) : clean (BitVec.zeros n) :=
  fun i _ => bitAt_zeros n i

theorem bitAt_empty (n i : Nat) : bitAt (BitVec.with_capacity n) i = false := by
  unfold bitAt BitVec.with_capacity
  rw [getD_zero_of_le (by simp)]
  simp

theorem wf_with_capacity (n : Nat) : wf (BitVec.with_capacity n) := by
  unfold wf BitVec.with_capacity
  simp

theorem clean_with_capacity (n : Nat) : clean (BitVec.with_capacity n) :=
  fun i _ => bitAt_empty n i

/-! ## Parity arithmetic -/

/-- Boolean parity (xor fold) of a predicate over a list of indices. -/
def parB (f : Nat → Bool) (l : List Nat) : Bool :=
  l.foldr (fun i acc => xor (f i) acc) false

theorem parB_nil (f : Nat → Bool) : parB f [] = false := rfl

theorem parB_cons (f : Nat → Bool) (i : Nat) (l : List Nat) :
    parB f (i :: l) = xor (f i) (parB f l) := rfl

theorem parB_congr {f g : Nat → Bool} {l : List Nat} (h : ∀ i ∈ l, f i = g i) :
    parB f l = parB g l := by
  induction l with
  | nil => rfl
  | cons a l ih =>
    rw [parB_cons, parB_cons, h a (by simp), ih (fun i hi => h i (by simp [hi]))]

theorem countP_mod_two (f : Nat → Bool) (l : List Nat) :
    (l.countP f % 2 == 1) = parB f l := by
  induction l with
  | nil => simp [parB_nil]
  | cons a l ih =>
    rw [parB_cons, List.countP_cons, ← ih]
    rcases Nat.mod_two_eq_zero_or_one (l.countP f) with hc | hc <;>
      by_cases h : f a <;>
        simp [h, Nat.add_mod, hc]

/-- Flipping a predicate at one position of a duplicate-free list flips the
parity exactly when the position is a member. -/
theorem parB_update {f : Nat → Bool} {t : Nat} (v : Bool) {l : List Nat}
    (hnd : l.Nodup) :
    parB (fun j => if j = t then v else f j) l =
      if t ∈ l then xor (parB f l) (xor v (f t)) else parB f l := by
  induction l with
  | nil => simp [parB_nil]
  | cons a l ih =>
    obtain ⟨hal, hndl⟩ := List.nodup_cons.mp hnd
    rw [parB_cons, parB_cons]
    by_cases hat : a = t
    · subst hat
      have htl : a ∉ l := hal
      have hcongr : parB (fun j => if j = a then v else f j) l = parB f l :=
        parB_congr (fun i hi => by
          have hia : i ≠ a := fun he => htl (he ▸ hi)
          rw [if_neg hia])
      rw [hcongr, if_pos (show a ∈ a :: l by simp), if_pos rfl]
      cases f a <;> cases v <;> cases parB f l <;> rfl
    · rw [if_neg hat, ih hndl]
      have hta : ¬ t = a := fun h => hat h.symm
      by_cases htl : t ∈ l
      · rw [if_pos htl, if_pos (by simp [htl])]
        cases f a <;> cases v <;> cases f t <;> cases parB f l <;> rfl
      · rw [if_neg htl, if_neg (by simp [htl, hta])]

/-- The positions the parity mask selects: 0-indexed i with (i+1) and mask
sharing a bit. -/
def maskList (n mask : Nat) : List Nat :=
  (List.range n).filter (fun i => decide ((i + 1) &&& mask ≠ 0))

/-- The parity value basic_compute_parity reports on a well-formed vector. -/
def checkB (f : Nat → Bool) (n mask : Nat) : Bool := parB f (maskList n mask)

theorem maskList_nodup (n mask : Nat) : (maskList n mask).Nodup :=
  (List.nodup_range n).filter _

theorem mem_maskList {i n mask : Nat} :
    i ∈ maskList n mask ↔ i < n ∧ (i + 1) &&& mask ≠ 0 := by
  simp [maskList, List.mem_filter]

theorem and_two_pow_ne (x e : Nat) : ((x &&& (1 <<< e)) ≠ 0) ↔ x.testBit e = true := by
  rw [Nat.one_shiftLeft]
  have hsplit : x &&& 2 ^ e = if x.testBit e then 2 ^ e else 0 := by
    apply Nat.eq_of_testBit_eq
    intro k
    rw [Nat.testBit_and, Nat.testBit_two_pow]
    by_cases hk : e = k
    · subst hk
      cases hx : x.testBit e <;> simp [hx]
    · cases hx : x.testBit e <;> simp [hx, hk]
  rw [hsplit]
  have h2 : (2 : Nat) ^ e ≠ 0 := by positivity
  by_cases hx : x.testBit e <;> simp [hx, h2]

theorem checkB_congr {f g : Nat → Bool} {n : Nat} (mask : Nat)
    (h : ∀ i, i < n → f i = g i) : checkB f n mask = checkB g n mask :=
  parB_congr (fun i hi => h i (mem_maskList.mp hi).1)

/-- Writing value v over a single position t of the word changes check i
exactly when position t is covered by the mask and the value changed. -/
theorem checkB_update (f : Nat → Bool) {t n : Nat} (v : Bool) (mask : Nat) (ht : t < n) :
    checkB (fun j => if j = t then v else f j) n mask =
      if (t + 1) &&& mask ≠ 0 then xor (checkB f n mask) (xor v (f t))
      else checkB f n mask := by
  rw [checkB, parB_update v (maskList_nodup n mask)]
  by_cases hc : (t + 1) &&& mask ≠ 0
  · rw [if_pos (mem_maskList.mpr ⟨ht, hc⟩), if_pos hc]
    rfl
  · rw [if_neg (fun hm => hc (mem_maskList.mp hm).2), if_neg hc]
    rfl

/-! ## basic_compute_parity on a well-formed vector -/

theorem paritySumAux_spec {cw : BitVec} (hwf : wf cw) (mask : Nat) :
    ∀ l, (∀ i ∈ l, i < cw.len) → ∀ s,
      Hamming.paritySumAux cw mask l s =
        some (Except.ok
          (s + (l.filter (fun i => decide ((i + 1) &&& mask ≠ 0))).countP (bitAt cw))) := by
  intro l
  induction l with
  | nil => simp [Hamming.paritySumAux]
  | cons a l ih =>
    intro hmem s
    have ha : a < cw.len := hmem a (by simp)
    have hrest : ∀ i ∈ l, i < cw.len := fun i hi => hmem i (by simp [hi])
    by_cases hc : (a + 1) &&& mask ≠ 0
    · rw [Hamming.paritySumAux, if_pos hc, get_lt hwf ha]
      show Hamming.paritySumAux cw mask l (if bitAt cw a then s + 1 else s) = _
      rw [ih hrest]
      have : (a :: l).filter (fun i => decide ((i + 1) &&& mask ≠ 0)) =
          a :: l.filter (fun i => decide ((i + 1) &&& mask ≠ 0)) := by
        simp [List.filter_cons, hc]
      rw [this, List.countP_cons]
      by_cases hb : bitAt cw a <;> simp [hb] <;> omega
    · rw [Hamming.paritySumAux, if_neg hc, ih hrest]
      have : (a :: l).filter (fun i => decide ((i + 1) &&& mask ≠ 0)) =
          l.filter (fun i => decide ((i + 1) &&& mask ≠ 0)) := by
        simp [List.filter_cons, hc]
      rw [this]

theorem bcp_spec {cw : BitVec} (hwf : wf cw) (mask : Nat) :
    Hamming.basic_compute_parity cw mask =
      some (Except.ok (checkB (bitAt cw) cw.len mask)) := by
  unfold Hamming.basic_compute_parity
  rw [paritySumAux_spec hwf mask (List.range cw.len) (by simp) 0]
  rw [checkB, maskList, ← countP_mod_two]
  simp

/-! ## Powers of two, the parity count, and position counting -/

theorem isPowerOfTwo_iff {n : Nat} : Hamming.isPowerOfTwo n = true ↔ ∃ k, n = 2 ^ k := by
  unfold Hamming.isPowerOfTwo
  rw [List.any_eq_true]
  constructor
  · rintro ⟨k, _, hk⟩
    exact ⟨k, by simpa using hk⟩
  · rintro ⟨k, hk⟩
    refine ⟨k, List.mem_range.mpr ?_, by simpa using hk⟩
    have := Nat.lt_two_pow k
    omega

theorem exists_pow_ge (n : Nat) : ∃ r, n + 1 ≤ 2 ^ r := ⟨n, Nat.lt_two_pow n⟩

/-- The least r with 2 to the r at least n plus 1 (proof-level definition). -/
def minPow (n : Nat) : Nat := Nat.find (exists_pow_ge n)

theorem minPow_spec (n : Nat) : n + 1 ≤ 2 ^ minPow n := Nat.find_spec (exists_pow_ge n)

theorem minPow_min {n r : Nat} (h : r < minPow n) : ¬ (n + 1 ≤ 2 ^ r) :=
  Nat.find_min (exists_pow_ge n) h

theorem minPow_unique {n r : Nat} (h1 : n + 1 ≤ 2 ^ r)
    (h2 : ∀ r2, r2 < r → ¬ (n + 1 ≤ 2 ^ r2)) : minPow n = r := by
  have ha : minPow n ≤ r := Nat.find_min' _ h1
  rcases Nat.lt_or_ge (minPow n) r with h | h
  · exact absurd (minPow_spec n) (h2 _ h)
  · omega

/-- While loop of calculate_parity_count: given enough fuel it returns the
least r at or above the start with 2 to the r at least k + r + 1. -/
theorem parityCountLoop_eq (k : Nat) : ∀ (fuel r0 : Nat),
    (k + (r0 + fuel) + 1 ≤ 2 ^ (r0 + fuel)) →
    (k + Hamming.parityCountLoop k fuel r0 + 1 ≤ 2 ^ Hamming.parityCountLoop k fuel r0) ∧
      r0 ≤ Hamming.parityCountLoop k fuel r0 ∧
      ∀ r2, r0 ≤ r2 → r2 < Hamming.parityCountLoop k fuel r0 →
        ¬ (k + r2 + 1 ≤ 2 ^ r2) := by
  intro fuel
  induction fuel with
  | zero =>
    intro r0 h
    rw [Hamming.parityCountLoop]
    exact ⟨by simpa using h, Nat.le_refl _, fun r2 h1 h2 => by omega⟩
  | succ fuel ih =>
    intro r0 h
    rw [Hamming.parityCountLoop]
    by_cases hc : 1 <<< r0 < k + r0 + 1
    · rw [if_pos hc]
      rw [Nat.one_shiftLeft] at hc
      have h2 : k + ((r0 + 1) + fuel) + 1 ≤ 2 ^ ((r0 + 1) + fuel) := by
        have heq : (r0 + 1) + fuel = r0 + (fuel + 1) := by omega
        rw [heq]
        exact h
      obtain ⟨ha, hb, hmin⟩ := ih (r0 + 1) h2
      refine ⟨ha, by omega, fun r2 hr1 hr2 => ?_⟩
      by_cases he : r2 = r0
      · subst he
        omega
      · exact hmin r2 (by omega) hr2
    · rw [if_neg hc]
      rw [Nat.one_shiftLeft] at hc
      exact ⟨by omega, Nat.le_refl _, fun r2 h1 h2 => by omega⟩

theorem two_pow_ge_linear (k : Nat) : k + (k + 2) + 1 ≤ 2 ^ (k + 2) := by
  have h := Nat.lt_two_pow k
  have h2 : 2 ^ (k + 2) = 2 ^ k * 4 := by ring
  omega

/-- calculate_parity_count returns the least r with 2 to the r at least
k + r + 1. -/
theorem calculate_parity_count_spec (k : Nat) :
    (k + Hamming.calculate_parity_count k + 1 ≤ 2 ^ Hamming.calculate_parity_count k) ∧
      ∀ r2, r2 < Hamming.calculate_parity_count k → ¬ (k + r2 + 1 ≤ 2 ^ r2) := by
  have h := parityCountLoop_eq k (k + 2) 0 (by simpa using two_pow_ge_linear k)
  exact ⟨h.1, fun r2 h2 => h.2.2 r2 (Nat.zero_le _) h2⟩

/-- The r-search of decode: findRLoop with fuel n + 1 returns minPow n. -/
theorem findRLoop_aux (n : Nat) : ∀ (fuel r0 : Nat), (n + 1 ≤ 2 ^ (r0 + fuel)) →
    (n + 1 ≤ 2 ^ Hamming.findRLoop n fuel r0) ∧ r0 ≤ Hamming.findRLoop n fuel r0 ∧
      ∀ r2, r0 ≤ r2 → r2 < Hamming.findRLoop n fuel r0 → ¬ (n + 1 ≤ 2 ^ r2) := by
  intro fuel
  induction fuel with
  | zero =>
    intro r0 h
    rw [Hamming.findRLoop]
    exact ⟨by simpa using h, Nat.le_refl _, fun r2 h1 h2 => by omega⟩
  | succ fuel ih =>
    intro r0 h
    rw [Hamming.findRLoop]
    by_cases hc : n + 1 ≤ 1 <<< r0
    · rw [if_pos hc]
      rw [Nat.one_shiftLeft] at hc
      exact ⟨hc, Nat.le_refl _, fun r2 h1 h2 => by omega⟩
    · rw [if_neg hc]
      rw [Nat.one_shiftLeft] at hc
      have h2 : n + 1 ≤ 2 ^ ((r0 + 1) + fuel) := by
        have heq : (r0 + 1) + fuel = r0 + (fuel + 1) := by omega
        rw [heq]
        exact h
      obtain ⟨ha, hb, hmin⟩ := ih (r0 + 1) h2
      refine ⟨ha, by omega, fun r2 hr1 hr2 => ?_⟩
      by_cases he : r2 = r0
      · subst he
        omega
      · exact hmin r2 (by omega) hr2

theorem findRLoop_eq_minPow (n : Nat) : Hamming.findRLoop n (n + 1) 0 = minPow n := by
  obtain ⟨ha, _, hmin⟩ := findRLoop_aux n (n + 1) 0 (by
    simp only [Nat.zero_add]
    have h := Nat.lt_two_pow n
    have h2 : 2 ^ (n + 1) = 2 ^ n * 2 := by ring
    omega)
  exact (minPow_unique ha (fun r2 h2 => hmin r2 (Nat.zero_le _) h2)).symm

/-- On the codeword length produced by encode, decode recomputes exactly the
parity count of encode. -/
theorem minPow_encode (k : Nat) :
    minPow (k + Hamming.calculate_parity_count k) = Hamming.calculate_parity_count k := by
  obtain ⟨h1, h2⟩ := calculate_parity_count_spec k
  refine minPow_unique h1 (fun r2 hlt hge => ?_)
  have := h2 r2 hlt
  omega

/-- Number of data positions (1-indexed non powers of two) below m. -/
def idx (m : Nat) : Nat :=
  (List.range m).countP (fun j => !(Hamming.isPowerOfTwo (j + 1)))

/-- Number of parity positions (1-indexed powers of two) below m. -/
def powCount (m : Nat) : Nat :=
  (List.range m).countP (fun j => Hamming.isPowerOfTwo (j + 1))

theorem idx_add_powCount (m : Nat) : idx m + powCount m = m := by
  unfold idx powCount
  induction m with
  | zero => rfl
  | succ m ih =>
    rw [List.range_succ, List.countP_append, List.countP_append]
    simp only [List.countP_cons, List.countP_nil]
    cases h : Hamming.isPowerOfTwo (m + 1) <;> (simp [h]; omega)

theorem idx_succ (m : Nat) :
    idx (m + 1) = idx m + (if Hamming.isPowerOfTwo (m + 1) then 0 else 1) := by
  unfold idx
  rw [List.range_succ, List.countP_append]
  cases h : Hamming.isPowerOfTwo (m + 1) <;> simp [h]

theorem powCount_succ (m : Nat) :
    powCount (m + 1) = powCount m + (if Hamming.isPowerOfTwo (m + 1) then 1 else 0) := by
  unfold powCount
  rw [List.range_succ, List.countP_append]
  cases h : Hamming.isPowerOfTwo (m + 1) <;> simp [h]

theorem minPow_zero : minPow 0 = 0 := by
  apply minPow_unique <;> simp

/-- The number of powers of two in 1..n is the least r with 2 to the r
exceeding n. -/
theorem powCount_eq_minPow (n : Nat) : powCount n = minPow n := by
  induction n with
  | zero =>
    rw [minPow_zero]
    rfl
  | succ n ih =>
    rw [powCount_succ, ih]
    by_cases hp : Hamming.isPowerOfTwo (n + 1) = true
    · obtain ⟨j, hj⟩ := isPowerOfTwo_iff.mp hp
      rw [if_pos hp]
      have hmn : minPow n = j := by
        apply minPow_unique
        · omega
        · intro r2 hr2 hge
          have hr2j : r2 + 1 ≤ j := hr2
          have : 2 ^ r2 * 2 ≤ 2 ^ j := by
            calc 2 ^ r2 * 2 = 2 ^ (r2 + 1) := by ring
            _ ≤ 2 ^ j := Nat.pow_le_pow_right (by omega) hr2j
          omega
      rw [hmn]
      apply (minPow_unique ?_ ?_).symm
      · have : 2 ^ (j + 1) = 2 ^ j * 2 := by ring
        omega
      · intro r2 hr2
        have : 2 ^ r2 ≤ 2 ^ j := Nat.pow_le_pow_right (by omega) (by omega)
        omega
    · rw [if_neg hp, Nat.add_zero]
      apply (minPow_unique ?_ ?_).symm
      · have h1 := minPow_spec n
        have hne : 2 ^ minPow n ≠ n + 1 := by
          intro he
          exact hp (isPowerOfTwo_iff.mpr ⟨minPow n, he.symm⟩)
        omega
      · intro r2 hr2
        have := minPow_min hr2
        omega

/-- In a codeword of length k + r (r the parity count of k), there are
exactly k data positions. -/
theorem idx_total (k : Nat) :
    idx (k + Hamming.calculate_parity_count k) = k := by
  have h1 := idx_add_powCount (k + Hamming.calculate_parity_count k)
  have h2 := powCount_eq_minPow (k + Hamming.calculate_parity_count k)
  have h3 := minPow_encode k
  omega

theorem idx_le_succ (m : Nat) : idx m ≤ idx (m + 1) := by
  rw [idx_succ]
  omega

theorem idx_mono {m m2 : Nat} (h : m ≤ m2) : idx m ≤ idx m2 := by
  induction m2 with
  | zero =>
    have hm : m = 0 := by omega
    subst hm
    exact Nat.le_refl _
  | succ m2 ih =>
    by_cases he : m = m2 + 1
    · subst he
      exact Nat.le_refl _
    · have h2 := ih (by omega)
      have h3 := idx_le_succ m2
      omega

theorem idx_lt_of_dataPos {m n : Nat} (hm : m < n)
    (hp : ¬ Hamming.isPowerOfTwo (m + 1) = true) : idx m < idx n := by
  have h1 : idx (m + 1) = idx m + 1 := by
    rw [idx_succ, if_neg hp]
  have h2 : idx (m + 1) ≤ idx n := idx_mono (by omega)
  omega

theorem idx_zero : idx 0 = 0 := rfl

/-! ## Step equations of the encode and decode loops -/

theorem fillData_cons_pow {data : BitVec} {i : Nat} {rest : List Nat} {cw : BitVec} {di : Nat}
    (hp : Hamming.isPowerOfTwo (i + 1) = true) :
    Hamming.fillData data (i :: rest) cw di = Hamming.fillData data rest cw di := by
  simp only [Hamming.fillData, hp, if_true]

theorem fillData_cons_data {data : BitVec} {i : Nat} {rest : List Nat} {cw cw3 : BitVec}
    {di : Nat} {b : Bool}
    (hp : ¬ Hamming.isPowerOfTwo (i + 1) = true)
    (h1 : data.get di = some (some b))
    (h2 : cw.set i b = some (cw3, Except.ok ())) :
    Hamming.fillData data (i :: rest) cw di = Hamming.fillData data rest cw3 (di + 1) := by
  simp only [Hamming.fillData, hp, if_false, Bool.false_eq_true, h1, h2]

theorem fillParity_cons_ok {i : Nat} {rest : List Nat} {cw cw3 : BitVec} {q : Bool}
    (h1 : Hamming.basic_compute_parity cw (1 <<< i) = some (Except.ok q))
    (h2 : cw.set ((1 <<< i) - 1) q = some (cw3, Except.ok ())) :
    Hamming.fillParity (i :: rest) cw = Hamming.fillParity rest cw3 := by
  simp only [Hamming.fillParity, h1, h2]

theorem syndromeLoop_cons {cw : BitVec} {i : Nat} {rest : List Nat} {acc : Nat} {b : Bool}
    (h : Hamming.basic_compute_parity cw (1 <<< i) = some (Except.ok b)) :
    Hamming.syndromeLoop cw (i :: rest) acc =
      Hamming.syndromeLoop cw rest (if b then acc + (1 <<< i) else acc) := by
  cases b <;> simp [Hamming.syndromeLoop, h]

theorem extractLoop_cons_pow {cw : BitVec} {i : Nat} {rest : List Nat} {acc : BitVec}
    (hp : Hamming.isPowerOfTwo (i + 1) = true) :
    Hamming.extractLoop cw (i :: rest) acc = Hamming.extractLoop cw rest acc := by
  simp only [Hamming.extractLoop, hp, if_true]

theorem extractLoop_cons_data {cw : BitVec} {i : Nat} {rest : List Nat} {acc d2 : BitVec}
    {b : Bool}
    (hp : ¬ Hamming.isPowerOfTwo (i + 1) = true)
    (h1 : cw.get i = some (some b))
    (h2 : acc.push b = some d2) :
    Hamming.extractLoop cw (i :: rest) acc = Hamming.extractLoop cw rest d2 := by
  simp only [Hamming.extractLoop, hp, if_false, Bool.false_eq_true, h1, h2]

/-! ## The first encode loop: placing the data bits -/

theorem fillData_spec {data : BitVec} (hwfd : wf data) {n : Nat} (hn : idx n = data.len) :
    ∀ (c m : Nat) (cw : BitVec), m + c = n → cw.len = n → wf cw → clean cw →
      (∀ j, j < m → ¬ Hamming.isPowerOfTwo (j + 1) = true →
        bitAt cw j = bitAt data (idx j)) →
      (∀ j, (m ≤ j ∨ Hamming.isPowerOfTwo (j + 1) = true) → bitAt cw j = false) →
      ∃ cw2, Hamming.fillData data (List.range' m c) cw (idx m) = some (Except.ok cw2) ∧
        cw2.len = n ∧ wf cw2 ∧ clean cw2 ∧
        (∀ j, j < n → ¬ Hamming.isPowerOfTwo (j + 1) = true →
          bitAt cw2 j = bitAt data (idx j)) ∧
        (∀ j, (n ≤ j ∨ Hamming.isPowerOfTwo (j + 1) = true) → bitAt cw2 j = false) := by
  intro c
  induction c with
  | zero =>
    intro m cw hmc hlen hwf hcl hdone hzero
    have hm : m = n := by omega
    subst hm
    exact ⟨cw, rfl, hlen, hwf, hcl, hdone, hzero⟩
  | succ c ih =>
    intro m cw hmc hlen hwf hcl hdone hzero
    rw [List.range'_succ]
    by_cases hp : Hamming.isPowerOfTwo (m + 1) = true
    · rw [fillData_cons_pow hp]
      have hidx : idx (m + 1) = idx m := by
        rw [idx_succ, if_pos hp]
        omega
      rw [← hidx]
      refine ih (m + 1) cw (by omega) hlen hwf hcl ?_ ?_
      · intro j hj hjp
        have hjm : j ≠ m := fun he => hjp (he ▸ hp)
        exact hdone j (by omega) hjp
      · intro j hj
        rcases hj with hj | hj
        · by_cases hjm : j = m
          · exact hzero j (Or.inr (hjm ▸ hp))
          · exact hzero j (Or.inl (by omega))
        · exact hzero j (Or.inr hj)
    · have hm : m < n := by omega
      have hdi : idx m < data.len := hn ▸ idx_lt_of_dataPos hm hp
      obtain ⟨cw3, hset, hlen3, hdata3, hform⟩ :=
        set_ok (i := m) (bitAt data (idx m)) hwf (by omega)
      rw [fillData_cons_data hp (get_lt hwfd hdi) hset]
      have hidx : idx (m + 1) = idx m + 1 := by
        rw [idx_succ, if_neg hp]
      rw [← hidx]
      refine ih (m + 1) cw3 (by omega) (by omega) ?_ ?_ ?_ ?_
      · unfold wf at hwf ⊢
        omega
      · intro i hi
        rw [hform i, if_neg (by omega)]
        exact hcl i (by omega)
      · intro j hj hjp
        by_cases hjm : j = m
        · subst hjm
          rw [hform j, if_pos rfl]
        · rw [hform j, if_neg hjm]
          exact hdone j (by omega) hjp
      · intro j hj
        have hjm : j ≠ m := by
          rcases hj with hj | hj
          · omega
          · intro he
            exact hp (he ▸ hj)
        rw [hform j, if_neg hjm]
        refine hzero j ?_
        rcases hj with hj | hj
        · exact Or.inl (by omega)
        · exact Or.inr hj

/-! ## The second encode loop: computing the parity bits -/

theorem pow_injective {a b : Nat} (h : (2 : Nat) ^ a = 2 ^ b) : a = b :=
  Nat.pow_right_injective (by omega) h

theorem fillParity_spec {F : Nat → Bool} {n r : Nat}
    (hbound : ∀ e, e < r → 2 ^ e ≤ n) :
    ∀ (c e0 : Nat) (cw : BitVec), e0 + c = r → cw.len = n → wf cw → clean cw →
      (∀ j, j < n → ¬ Hamming.isPowerOfTwo (j + 1) = true → bitAt cw j = F j) →
      (∀ e, e0 ≤ e → e < r → bitAt cw (1 <<< e - 1) = false) →
      (∀ e, e < e0 → checkB (bitAt cw) n (1 <<< e) = false) →
      ∃ cw2, Hamming.fillParity (List.range' e0 c) cw = some (Except.ok cw2) ∧
        cw2.len = n ∧ wf cw2 ∧ clean cw2 ∧
        (∀ j, j < n → ¬ Hamming.isPowerOfTwo (j + 1) = true → bitAt cw2 j = F j) ∧
        (∀ e, e < r → checkB (bitAt cw2) n (1 <<< e) = false) := by
  intro c
  induction c with
  | zero =>
    intro e0 cw hec hlen hwf hcl hdata hfut hpast
    have he : e0 = r := by omega
    subst he
    exact ⟨cw, rfl, hlen, hwf, hcl, hdata, fun e hee => hpast e hee⟩
  | succ c ih =>
    intro e0 cw hec hlen hwf hcl hdata hfut hpast
    rw [List.range'_succ]
    have he0r : e0 < r := by omega
    have hsl : (1 : Nat) <<< e0 = 2 ^ e0 := Nat.one_shiftLeft e0
    have hpos : (1 : Nat) ≤ 2 ^ e0 := Nat.one_le_two_pow
    have hbnd : 2 ^ e0 ≤ n := hbound e0 he0r
    have htlen : 1 <<< e0 - 1 < cw.len := by
      rw [hsl]
      omega
    have hq := bcp_spec hwf (1 <<< e0)
    rw [hlen] at hq
    obtain ⟨cw3, hset, hlen3, hdata3, hform⟩ :=
      set_ok (v := checkB (bitAt cw) n (1 <<< e0)) hwf htlen
    rw [fillParity_cons_ok hq hset]
    -- the written position, viewed 1-indexed, is the power of two 2 ^ e0
    have htsucc : 1 <<< e0 - 1 + 1 = 2 ^ e0 := by
      rw [hsl]
      omega
    have hptw : Hamming.isPowerOfTwo (1 <<< e0 - 1 + 1) = true := by
      rw [htsucc]
      exact isPowerOfTwo_iff.mpr ⟨e0, rfl⟩
    have hchk : ∀ e, checkB (bitAt cw3) n (1 <<< e) =
        if (2 ^ e0) &&& (1 <<< e) ≠ 0 then
          xor (checkB (bitAt cw) n (1 <<< e))
            (xor (checkB (bitAt cw) n (1 <<< e0)) (bitAt cw (1 <<< e0 - 1)))
        else checkB (bitAt cw) n (1 <<< e) := by
      intro e
      have hc := checkB_update (bitAt cw)
        (v := checkB (bitAt cw) n (1 <<< e0)) (1 <<< e) (t := 1 <<< e0 - 1)
        (show 1 <<< e0 - 1 < n by rw [hsl]; omega)
      rw [htsucc] at hc
      rw [← hc]
      exact checkB_congr _ (fun i hi => hform i)
    have hmask : ∀ e, ((2 ^ e0) &&& (1 <<< e) ≠ 0) ↔ e0 = e := by
      intro e
      rw [and_two_pow_ne, Nat.testBit_two_pow]
      simp
    refine ih (e0 + 1) cw3 (by omega) (by omega) ?_ ?_ ?_ ?_ ?_
    · unfold wf at hwf ⊢
      omega
    · intro i hi
      rw [hform i, if_neg (by omega)]
      exact hcl i (by omega)
    · intro j hj hjp
      have hjt : j ≠ 1 <<< e0 - 1 := by
        intro he
        exact hjp (he ▸ hptw)
      rw [hform j, if_neg hjt]
      exact hdata j hj hjp
    · intro e hee her
      have hne : 1 <<< e - 1 ≠ 1 <<< e0 - 1 := by
        rw [Nat.one_shiftLeft, hsl]
        intro he
        have h1 : (1 : Nat) ≤ 2 ^ e := Nat.one_le_two_pow
        have h2 : (2 : Nat) ^ e = 2 ^ e0 := by omega
        have := pow_injective h2
        omega
      rw [hform _, if_neg hne]
      exact hfut e (by omega) her
    · intro e hee
      rw [hchk e]
      by_cases hem : e0 = e
      · subst hem
        rw [if_pos ((hmask e0).mpr rfl)]
        rw [hfut e0 (Nat.le_refl _) he0r]
        cases checkB (bitAt cw) n (1 <<< e0) <;> rfl
      · rw [if_neg (fun hc => hem ((hmask e).mp hc))]
        exact hpast e (by omega)

/-- Hamming::encode on a well-formed data vector: it succeeds, the codeword
has length k + r, the non power-of-two positions carry the data bits in
order, and every parity check of the result passes. -/
theorem encode_spec {data : BitVec} (hwfd : wf data) :
    ∃ cw, Hamming.encode data = some (Except.ok cw) ∧
      cw.len = data.len + Hamming.calculate_parity_count data.len ∧ wf cw ∧ clean cw ∧
      (∀ j, j < cw.len → ¬ Hamming.isPowerOfTwo (j + 1) = true →
        bitAt cw j = bitAt data (idx j)) ∧
      (∀ e, e < Hamming.calculate_parity_count data.len →
        checkB (bitAt cw) cw.len (1 <<< e) = false) := by
  set k := data.len with hk
  set r := Hamming.calculate_parity_count k with hr
  set n := k + r with hnd
  have hn : idx n = k := idx_total k
  obtain ⟨cw1, hfd, hlen1, hwf1, hcl1, hdata1, hzero1⟩ :=
    fillData_spec hwfd hn n 0 (BitVec.zeros n) (by omega) (zeros_len n)
      (wf_zeros n) (clean_zeros n)
      (fun j hj _ => by omega)
      (fun j _ => bitAt_zeros n j)
  have hbound : ∀ e, e < r → 2 ^ e ≤ n := by
    intro e he
    have hmp : minPow n = r := minPow_encode k
    have := minPow_min (n := n) (r := e) (by omega)
    omega
  obtain ⟨cw2, hfp, hlen2, hwf2, hcl2, hdata2, hchk2⟩ :=
    fillParity_spec (F := fun j => bitAt data (idx j)) hbound r 0 cw1 (by omega)
      hlen1 hwf1 hcl1 hdata1
      (fun e _ her => hzero1 (1 <<< e - 1) (Or.inr (by
        have hpos : (1 : Nat) ≤ 2 ^ e := Nat.one_le_two_pow
        have h1 : 1 <<< e - 1 + 1 = 2 ^ e := by
          rw [Nat.one_shiftLeft]
          omega
        rw [h1]
        exact isPowerOfTwo_iff.mpr ⟨e, rfl⟩)))
      (fun e he => by omega)
  refine ⟨cw2, ?_, by omega, hwf2, hcl2, ?_, ?_⟩
  · rw [show idx 0 = 0 from rfl] at hfd
    show (match Hamming.fillData data (List.range (k + r)) (BitVec.zeros (k + r)) 0 with
      | none => none
      | some (Except.error e) => some (Except.error e)
      | some (Except.ok codeword) => Hamming.fillParity (List.range r) codeword) =
        some (Except.ok cw2)
    rw [← hnd, List.range_eq_range' n, hfd, List.range_eq_range' r]
    exact hfp
  · intro j hj hjp
    exact hdata2 j (by omega) hjp
  · intro e he
    rw [hlen2]
    exact hchk2 e he

/-! ## The decode loops -/

theorem syndromeLoop_spec {cw : BitVec} (hwf : wf cw) :
    ∀ (l : List Nat) (acc : Nat),
      Hamming.syndromeLoop cw l acc = some (Except.ok (acc +
        (l.map (fun i =>
          if checkB (bitAt cw) cw.len (1 <<< i) then 1 <<< i else 0)).sum)) := by
  intro l
  induction l with
  | nil =>
    intro acc
    simp [Hamming.syndromeLoop]
  | cons a l ih =>
    intro acc
    rw [syndromeLoop_cons (bcp_spec hwf (1 <<< a))]
    cases hc : checkB (bitAt cw) cw.len (1 <<< a)
    · rw [if_neg (by simp), ih]
      simp only [List.map_cons, List.sum_cons, hc, Bool.false_eq_true, if_false]
      rw [Nat.zero_add]
    · rw [if_pos rfl, ih]
      simp only [List.map_cons, List.sum_cons, hc, if_true]
      rw [Nat.add_assoc]

theorem sum_zero_of_all {l : List Nat} (h : ∀ x ∈ l, x = 0) : l.sum = 0 := by
  induction l with
  | nil => rfl
  | cons a l ih =>
    rw [List.sum_cons, h a (by simp), ih (fun x hx => h x (by simp [hx]))]

/-- Binary expansion: summing 1 << i over the set bits below r recovers the
number modulo 2 to the r. -/
theorem sum_testBit_mod (p : Nat) : ∀ r : Nat,
    ((List.range r).map (fun i => if p.testBit i then 1 <<< i else 0)).sum = p % 2 ^ r := by
  intro r
  induction r with
  | zero => simp [Nat.mod_one]
  | succ r ih =>
    rw [List.range_succ, List.map_append, List.sum_append, ih]
    simp only [List.map_cons, List.map_nil, List.sum_cons, List.sum_nil]
    have h2 : 2 ^ (r + 1) = 2 ^ r * 2 := by ring
    rw [h2, Nat.mod_mul]
    rw [Nat.testBit_to_div_mod]
    rcases Nat.mod_two_eq_zero_or_one (p / 2 ^ r) with h | h <;>
      simp [h, Nat.one_shiftLeft]

theorem extractLoop_spec {corrected : BitVec} {G : Nat → Bool} {N : Nat}
    (hwfc : wf corrected) (hlenc : corrected.len = N)
    (hbits : ∀ j, j < N → ¬ Hamming.isPowerOfTwo (j + 1) = true →
      bitAt corrected j = G (idx j)) :
    ∀ (c m : Nat) (acc : BitVec), m + c = N → wf acc → clean acc → acc.len = idx m →
      (∀ t, t < idx m → bitAt acc t = G t) →
      ∃ d, Hamming.extractLoop corrected (List.range' m c) acc = some (Except.ok d) ∧
        d.len = idx N ∧ wf d ∧ clean d ∧ (∀ t, t < idx N → bitAt d t = G t) := by
  intro c
  induction c with
  | zero =>
    intro m acc hmc hwfa hcla hlena hbs
    have hm : m = N := by omega
    subst hm
    exact ⟨acc, rfl, hlena, hwfa, hcla, hbs⟩
  | succ c ih =>
    intro m acc hmc hwfa hcla hlena hbs
    rw [List.range'_succ]
    by_cases hp : Hamming.isPowerOfTwo (m + 1) = true
    · rw [extractLoop_cons_pow hp]
      have hidx : idx (m + 1) = idx m := by
        rw [idx_succ, if_pos hp]
        omega
      refine ih (m + 1) acc (by omega) hwfa hcla (by omega) ?_
      intro t ht
      exact hbs t (by omega)
    · have hm : m < N := by omega
      have hg : corrected.get m = some (some (G (idx m))) := by
        rw [get_lt hwfc (by omega), hbits m hm hp]
      obtain ⟨d2, hpush, hlen2, hwf2, hcl2, hform⟩ := push_ok (G (idx m)) hwfa hcla
      rw [extractLoop_cons_data hp hg hpush]
      have hidx : idx (m + 1) = idx m + 1 := by
        rw [idx_succ, if_neg hp]
      refine ih (m + 1) d2 (by omega) hwf2 hcl2 (by omega) ?_
      intro t ht
      rw [hform t]
      by_cases hte : t = acc.len
      · rw [if_pos hte, hte, hlena]
      · rw [if_neg hte]
        exact hbs t (by omega)

/-! ## Reduction equations for Hamming::decode -/

theorem decode_eq_noCorrection {C : BitVec} {ep : Nat} {d : BitVec}
    (h1 : Hamming.syndromeLoop C
      (List.range (Hamming.findRLoop C.len (C.len + 1) 0)) 0 = some (Except.ok ep))
    (h0 : ¬ (ep > 0 ∧ ep - 1 < C.len))
    (h3 : Hamming.extractLoop C (List.range C.len)
      (BitVec.with_capacity (C.len - Hamming.findRLoop C.len (C.len + 1) 0)) =
        some (Except.ok d)) :
    Hamming.decode C = some (Except.ok (d, ep)) := by
  simp only [Hamming.decode, h1, if_neg h0, h3]

theorem decode_eq_correction {C : BitVec} {ep : Nat} {cur : Bool} {C2 d : BitVec}
    (h1 : Hamming.syndromeLoop C
      (List.range (Hamming.findRLoop C.len (C.len + 1) 0)) 0 = some (Except.ok ep))
    (h0 : ep > 0 ∧ ep - 1 < C.len)
    (hg : C.get (ep - 1) = some (some cur))
    (hs : C.set (ep - 1) (!cur) = some (C2, Except.ok ()))
    (h3 : Hamming.extractLoop C2 (List.range C2.len)
      (BitVec.with_capacity (C.len - Hamming.findRLoop C.len (C.len + 1) 0)) =
        some (Except.ok d)) :
    Hamming.decode C = some (Except.ok (d, ep)) := by
  simp only [Hamming.decode, h1, if_pos h0, hg, hs, h3]

/-! ## Decoding a valid codeword -/

theorem decode_valid {C : BitVec} {G : Nat → Bool} (hwf : wf C)
    (hchk : ∀ e, e < minPow C.len → checkB (bitAt C) C.len (1 <<< e) = false)
    (hbits : ∀ j, j < C.len → ¬ Hamming.isPowerOfTwo (j + 1) = true →
      bitAt C j = G (idx j)) :
    ∃ d, Hamming.decode C = some (Except.ok (d, 0)) ∧ d.len = idx C.len ∧
      wf d ∧ clean d ∧ ∀ t, t < idx C.len → bitAt d t = G t := by
  have hR : Hamming.findRLoop C.len (C.len + 1) 0 = minPow C.len :=
    findRLoop_eq_minPow C.len
  have h1 : Hamming.syndromeLoop C
      (List.range (Hamming.findRLoop C.len (C.len + 1) 0)) 0 = some (Except.ok 0) := by
    rw [hR, syndromeLoop_spec hwf]
    have hz : ((List.range (minPow C.len)).map (fun i =>
        if checkB (bitAt C) C.len (1 <<< i) then 1 <<< i else 0)).sum = 0 := by
      apply sum_zero_of_all
      intro x hx
      obtain ⟨i, hi, hix⟩ := List.mem_map.mp hx
      rw [hchk i (List.mem_range.mp hi)] at hix
      simp at hix
      omega
    rw [hz]
  obtain ⟨d, hext, hdl, hdw, hdc, hdb⟩ :=
    extractLoop_spec hwf rfl hbits C.len 0
      (BitVec.with_capacity (C.len - Hamming.findRLoop C.len (C.len + 1) 0))
      (by omega) (wf_with_capacity _) (clean_with_capacity _) rfl
      (fun t ht => by simp [idx_zero] at ht)
  rw [← List.range_eq_range' C.len] at hext
  exact ⟨d, decode_eq_noCorrection h1 (by omega) hext, hdl, hdw, hdc, hdb⟩

/-! ## Decoding a codeword with one flipped bit -/

theorem decode_flip {C : BitVec} {G : Nat → Bool} {p : Nat} (hwf : wf C)
    (hchk : ∀ e, e < minPow C.len → checkB (bitAt C) C.len (1 <<< e) = false)
    (hbits : ∀ j, j < C.len → ¬ Hamming.isPowerOfTwo (j + 1) = true →
      bitAt C j = G (idx j))
    (hp1 : 1 ≤ p) (hp2 : p ≤ C.len) :
    ∃ C2 d, C.toggle (p - 1) = some (C2, Except.ok ()) ∧
      Hamming.decode C2 = some (Except.ok (d, p)) ∧ d.len = idx C.len ∧
      wf d ∧ clean d ∧ ∀ t, t < idx C.len → bitAt d t = G t := by
  obtain ⟨C2, htog, hlen2, hdata2, hform2⟩ := toggle_ok hwf (i := p - 1) (by omega)
  have hwf2 : wf C2 := by
    unfold wf at hwf ⊢
    omega
  -- every check of the flipped word reads off one bit of p
  have hchk2 : ∀ e, checkB (bitAt C2) C2.len (1 <<< e) =
      if p.testBit e then !(checkB (bitAt C) C.len (1 <<< e))
      else checkB (bitAt C) C.len (1 <<< e) := by
    intro e
    have hcu := checkB_update (bitAt C)
      (v := !(bitAt C (p - 1))) (1 <<< e) (t := p - 1) (n := C.len) (by omega)
    have hps : p - 1 + 1 = p := by omega
    rw [hps] at hcu
    have hcg : checkB (bitAt C2) C2.len (1 <<< e) =
        checkB (fun j => if j = p - 1 then !(bitAt C (p - 1)) else bitAt C j)
          C.len (1 <<< e) := by
      rw [hlen2]
      refine checkB_congr _ (fun i hi => ?_)
      rw [hform2 i]
      by_cases hj : i = p - 1
      · rw [if_pos hj, if_pos hj, hj]
      · rw [if_neg hj, if_neg hj]
    rw [hcg, hcu]
    by_cases hm : p &&& (1 <<< e) ≠ 0
    · rw [if_pos hm, if_pos ((and_two_pow_ne p e).mp hm)]
      cases bitAt C (p - 1) <;> cases checkB (bitAt C) C.len (1 <<< e) <;> rfl
    · rw [if_neg hm, if_neg (by
        intro ht
        exact hm ((and_two_pow_ne p e).mpr ht))]
  have hR : Hamming.findRLoop C2.len (C2.len + 1) 0 = minPow C.len := by
    rw [hlen2]
    exact findRLoop_eq_minPow C.len
  have hplt : p < 2 ^ minPow C.len := by
    have := minPow_spec C.len
    omega
  have h1 : Hamming.syndromeLoop C2
      (List.range (Hamming.findRLoop C2.len (C2.len + 1) 0)) 0 = some (Except.ok p) := by
    rw [hR, syndromeLoop_spec hwf2]
    have hsum : ((List.range (minPow C.len)).map (fun i =>
        if checkB (bitAt C2) C2.len (1 <<< i) then 1 <<< i else 0)).sum = p := by
      have hcongr : (List.range (minPow C.len)).map (fun i =>
          if checkB (bitAt C2) C2.len (1 <<< i) then 1 <<< i else 0) =
          (List.range (minPow C.len)).map (fun i =>
            if p.testBit i then 1 <<< i else 0) := by
        apply List.map_congr_left
        intro i hi
        rw [hchk2 i, hchk i (List.mem_range.mp hi)]
        cases ht : p.testBit i <;> simp [ht]
      rw [hcongr, sum_testBit_mod p (minPow C.len), Nat.mod_eq_of_lt hplt]
    rw [hsum]
    simp
  -- the correction branch fires and restores the original bit
  have hcur : C2.get (p - 1) = some (some (!(bitAt C (p - 1)))) := by
    rw [get_lt hwf2 (by omega), hform2 (p - 1), if_pos rfl]
  obtain ⟨C3, hset3, hlen3, hdata3, hform3⟩ :=
    set_ok (i := p - 1) (v := !(!(bitAt C (p - 1)))) hwf2 (by omega)
  have hC3 : ∀ j, bitAt C3 j = bitAt C j := by
    intro j
    rw [hform3 j]
    by_cases hj : j = p - 1
    · rw [if_pos hj, hj, Bool.not_not]
    · rw [if_neg hj, hform2 j, if_neg hj]
  have hwf3 : wf C3 := by
    unfold wf at hwf2 ⊢
    omega
  obtain ⟨d, hext, hdl, hdw, hdc, hdb⟩ :=
    extractLoop_spec (G := G) (N := C.len) hwf3 (by omega)
      (fun j hj hjp => by rw [hC3 j]; exact hbits j hj hjp)
      C.len 0
      (BitVec.with_capacity (C2.len - Hamming.findRLoop C2.len (C2.len + 1) 0))
      (by omega) (wf_with_capacity _) (clean_with_capacity _) rfl
      (fun t ht => by simp [idx_zero] at ht)
  rw [← List.range_eq_range' C.len] at hext
  have hlen3' : List.range C.len = List.range C3.len := by
    rw [show C3.len = C.len by omega]
  rw [hlen3'] at hext
  refine ⟨C2, d, htog, ?_, hdl, hdw, hdc, hdb⟩
  exact decode_eq_correction h1 (by omega) hcur hset3 hext

/-! ## Claim theorems for the Hamming codec -/

theorem checks_of_encode {data cw : BitVec}
    (hlen : cw.len = data.len + Hamming.calculate_parity_count data.len)
    (hchkc : ∀ e, e < Hamming.calculate_parity_count data.len →
      checkB (bitAt cw) cw.len (1 <<< e) = false) :
    ∀ e, e < minPow cw.len → checkB (bitAt cw) cw.len (1 <<< e) = false := by
  intro e he
  apply hchkc
  rw [hlen, minPow_encode] at he
  exact he

theorem bits_of_extract {data d : BitVec} {cw : BitVec}
    (hlen : cw.len = data.len + Hamming.calculate_parity_count data.len)
    (hdl : d.len = idx cw.len)
    (hdb : ∀ t, t < idx cw.len → bitAt d t = bitAt data t) :
    bits d = bits data := by
  have hidx : idx cw.len = data.len := by
    rw [hlen, idx_total]
  unfold bits
  rw [hdl, hidx]
  apply List.map_congr_left
  intro t ht
  exact hdb t (by rw [hidx]; exact List.mem_range.mp ht)

/-- C1: for every data bit sequence (any well-formed BitVec, including the
empty one), Hamming decode of Hamming encode returns the original data bits
and syndrome 0. -/
theorem C1_encode_decode_roundtrip (data : BitVec) (hwf : wf data) :
    ∃ cw d, Hamming.encode data = some (Except.ok cw) ∧
      Hamming.decode cw = some (Except.ok (d, 0)) ∧ bits d = bits data := by
  obtain ⟨cw, henc, hlen, hwfc, _, hbitsc, hchkc⟩ := encode_spec hwf
  obtain ⟨d, hdec, hdl, _, _, hdb⟩ :=
    decode_valid (G := bitAt data) hwfc (checks_of_encode hlen hchkc) hbitsc
  exact ⟨cw, d, henc, hdec, bits_of_extract hlen hdl hdb⟩

/-- Closed instance of C1 at the concrete data 1,0,1,1. -/
theorem C1_witness :
    wf (BitVec.from_vec [true, false, true, true]) ∧
    ∃ cw d, Hamming.encode (BitVec.from_vec [true, false, true, true]) =
        some (Except.ok cw) ∧
      Hamming.decode cw = some (Except.ok (d, 0)) ∧
      bits d = bits (BitVec.from_vec [true, false, true, true]) :=
  ⟨by decide, C1_encode_decode_roundtrip _ (by decide)⟩

/-- C2: toggling exactly one bit (1-indexed position p, 1 <= p <= k + r) of
the codeword makes decode return the original data and syndrome p. -/
theorem C2_single_flip_syndrome (data : BitVec) (hwf : wf data) (hk : 0 < data.len)
    (p : Nat) (hp1 : 1 ≤ p)
    (hp2 : p ≤ data.len + Hamming.calculate_parity_count data.len) :
    ∃ cw cwBad d, Hamming.encode data = some (Except.ok cw) ∧
      cw.toggle (p - 1) = some (cwBad, Except.ok ()) ∧
      Hamming.decode cwBad = some (Except.ok (d, p)) ∧ bits d = bits data := by
  obtain ⟨cw, henc, hlen, hwfc, _, hbitsc, hchkc⟩ := encode_spec hwf
  obtain ⟨cwBad, d, htog, hdec, hdl, _, _, hdb⟩ :=
    decode_flip (G := bitAt data) hwfc (checks_of_encode hlen hchkc) hbitsc hp1
      (by omega)
  exact ⟨cw, cwBad, d, henc, htog, hdec, bits_of_extract hlen hdl hdb⟩

/-- Closed instance of C2: the spec scenario, data 1,0,1,1 with 1-indexed
position 3 flipped, giving syndrome 3. -/
theorem C2_witness :
    (wf (BitVec.from_vec [true, false, true, true]) ∧
      0 < (BitVec.from_vec [true, false, true, true]).len ∧ 1 ≤ 3 ∧
      3 ≤ (BitVec.from_vec [true, false, true, true]).len +
        Hamming.calculate_parity_count (BitVec.from_vec [true, false, true, true]).len) ∧
    ∃ cw cwBad d,
      Hamming.encode (BitVec.from_vec [true, false, true, true]) = some (Except.ok cw) ∧
      cw.toggle (3 - 1) = some (cwBad, Except.ok ()) ∧
      Hamming.decode cwBad = some (Except.ok (d, 3)) ∧
      bits d = bits (BitVec.from_vec [true, false, true, true]) :=
  ⟨⟨by decide, by decide, by decide, by decide⟩,
    C2_single_flip_syndrome _ (by decide) (by decide) 3 (by decide) (by decide)⟩

/-- C3: calculate_parity_count k is the minimal r with 2 to the r at least
k + r + 1 (proved for every k, which covers 0..100000). -/
theorem C3_parity_count_minimal (k : Nat) :
    2 ^ Hamming.calculate_parity_count k ≥ k + Hamming.calculate_parity_count k + 1 ∧
    ∀ r, 2 ^ r ≥ k + r + 1 → Hamming.calculate_parity_count k ≤ r := by
  obtain ⟨h1, h2⟩ := calculate_parity_count_spec k
  refine ⟨h1, fun r hr => ?_⟩
  by_contra hlt
  exact h2 r (by omega) hr

/-- Closed instance of C3 at k = 4, r = 3. -/
theorem C3_witness :
    2 ^ Hamming.calculate_parity_count 4 ≥ 4 + Hamming.calculate_parity_count 4 + 1 ∧
    Hamming.calculate_parity_count 4 ≤ 3 :=
  ⟨(C3_parity_count_minimal 4).1, (C3_parity_count_minimal 4).2 3 (by decide)⟩

/-! ## Inversion lemmas for set, toggle and push -/

theorem get_of_byte {bv : BitVec} {i : Nat} (hi : i < bv.len)
    (hb : i / 8 < bv.data.length) : bv.get i = some (some (bitAt bv i)) := by
  simp only [BitVec.get, if_neg (by omega : ¬ bv.len ≤ i), get?_of_lt hb,
    shift_and_beq]
  rfl

theorem get_panic_of_nobyte {bv : BitVec} {i : Nat} (hi : i < bv.len)
    (hb : bv.data.length ≤ i / 8) : bv.get i = none := by
  simp only [BitVec.get, if_neg (by omega : ¬ bv.len ≤ i), get?_of_le hb]

theorem set_panic_of_nobyte {bv : BitVec} {i : Nat} (v : Bool) (hi : i < bv.len)
    (hb : bv.data.length ≤ i / 8) : bv.set i v = none := by
  simp only [BitVec.set, if_neg (by omega : ¬ bv.len ≤ i), get?_of_le hb]

theorem toggle_panic_of_nobyte {bv : BitVec} {i : Nat} (hi : i < bv.len)
    (hb : bv.data.length ≤ i / 8) : bv.toggle i = none := by
  simp only [BitVec.toggle, if_neg (by omega : ¬ bv.len ≤ i), get?_of_le hb]

theorem set_ok_inv {bv bv2 : BitVec} {i : Nat} {v : Bool}
    (h : bv.set i v = some (bv2, Except.ok ())) :
    i < bv.len ∧ i / 8 < bv.data.length ∧ bv2.len = bv.len ∧
    bv2.data.length = bv.data.length ∧
    ∀ j, bitAt bv2 j = if j = i then v else bitAt bv j := by
  have hi : i < bv.len := by
    by_contra hn
    rw [set_oob v (by omega)] at h
    simp at h
  have hb : i / 8 < bv.data.length := by
    by_contra hn
    rw [set_panic_of_nobyte v hi (by omega)] at h
    exact Option.noConfusion h
  obtain ⟨bv2x, hset, hlen, hdl, hform⟩ := set_okb v hi hb
  rw [hset] at h
  have hx : bv2x = bv2 := by
    have := (Prod.mk.injEq _ _ _ _).mp (Option.some.inj h)
    exact this.1
  subst hx
  exact ⟨hi, hb, hlen, hdl, hform⟩

theorem toggle_ok_inv {bv bv2 : BitVec} {i : Nat}
    (h : bv.toggle i = some (bv2, Except.ok ())) :
    i < bv.len ∧ i / 8 < bv.data.length ∧ bv2.len = bv.len ∧
    bv2.data.length = bv.data.length ∧
    ∀ j, bitAt bv2 j = if j = i then !(bitAt bv j) else bitAt bv j := by
  have hi : i < bv.len := by
    by_contra hn
    rw [toggle_oob (by omega)] at h
    simp at h
  have hb : i / 8 < bv.data.length := by
    by_contra hn
    rw [toggle_panic_of_nobyte hi (by omega)] at h
    exact Option.noConfusion h
  obtain ⟨bv2x, htog, hlen, hdl, hform⟩ := toggle_okb hi hb
  rw [htog] at h
  have hx : bv2x = bv2 := by
    have := (Prod.mk.injEq _ _ _ _).mp (Option.some.inj h)
    exact this.1
  subst hx
  exact ⟨hi, hb, hlen, hdl, hform⟩

theorem set_error_inv {bv bv2 : BitVec} {i : Nat} {v : Bool} {e : BitVecError}
    (h : bv.set i v = some (bv2, Except.error e)) : bv2 = bv ∧ bv.len ≤ i := by
  by_cases hi : bv.len ≤ i
  · rw [set_oob v hi] at h
    have := (Prod.mk.injEq _ _ _ _).mp (Option.some.inj h)
    exact ⟨this.1.symm, hi⟩
  · exfalso
    by_cases hb : i / 8 < bv.data.length
    · obtain ⟨bv2x, hset, _, _, _⟩ := set_okb v (by omega) hb
      rw [hset] at h
      have := (Prod.mk.injEq _ _ _ _).mp (Option.some.inj h)
      exact Except.noConfusion this.2
    · rw [set_panic_of_nobyte v (by omega) (by omega)] at h
      exact Option.noConfusion h

theorem toggle_error_inv {bv bv2 : BitVec} {i : Nat} {e : BitVecError}
    (h : bv.toggle i = some (bv2, Except.error e)) : bv2 = bv ∧ bv.len ≤ i := by
  by_cases hi : bv.len ≤ i
  · rw [toggle_oob hi] at h
    have := (Prod.mk.injEq _ _ _ _).mp (Option.some.inj h)
    exact ⟨this.1.symm, hi⟩
  · exfalso
    by_cases hb : i / 8 < bv.data.length
    · obtain ⟨bv2x, htog, _, _, _⟩ := toggle_okb (by omega) hb
      rw [htog] at h
      have := (Prod.mk.injEq _ _ _ _).mp (Option.some.inj h)
      exact Except.noConfusion this.2
    · rw [toggle_panic_of_nobyte (by omega) (by omega)] at h
      exact Option.noConfusion h

/-- Inversion of push: the bit length grows by one and the byte storage grows
exactly when the old length was a byte boundary. -/
theorem push_inv {bv bv2 : BitVec} {b : Bool} (h : bv.push b = some bv2) :
    bv2.len = bv.len + 1 ∧
    bv2.data.length = bv.data.length + (if bv.len % 8 = 0 then 1 else 0) := by
  unfold BitVec.push at h
  by_cases h8 : bv.len % 8 = 0
  · simp only [h8, beq_self_eq_true, if_true] at h
    cases b
    · simp only [Bool.false_eq_true, if_false] at h
      have hx := Option.some.inj h
      rw [← hx]
      simp [h8]
    · simp only [if_true] at h
      cases hg : (bv.data ++ [0]).get? (bv.len / 8) with
      | none =>
        rw [hg] at h
        exact Option.noConfusion h
      | some byte =>
        rw [hg] at h
        have hx := Option.some.inj h
        rw [← hx]
        simp [h8]
  · simp only [beq_iff_eq, if_neg h8] at h
    cases b
    · simp only [Bool.false_eq_true, if_false] at h
      have hx := Option.some.inj h
      rw [← hx]
      simp [h8]
    · simp only [if_true] at h
      cases hg : bv.data.get? (bv.len / 8) with
      | none =>
        rw [hg] at h
        exact Option.noConfusion h
      | some byte =>
        rw [hg] at h
        have hx := Option.some.inj h
        rw [← hx]
        simp [h8]

/-! ## Claim theorems for the BitVec invariant and accessors -/

theorem chunks8_len : ∀ l : List Bool, l.length ≤ 8 * (BitVec.chunks8 l).length
  | [] => by simp [BitVec.chunks8]
  | [a] => by simp [BitVec.chunks8]
  | [a, b] => by simp [BitVec.chunks8]
  | [a, b, c] => by simp [BitVec.chunks8]
  | [a, b, c, d] => by simp [BitVec.chunks8]
  | [a, b, c, d, e] => by simp [BitVec.chunks8]
  | [a, b, c, d, e, f] => by simp [BitVec.chunks8]
  | [a, b, c, d, e, f, g] => by simp [BitVec.chunks8]
  | a :: b :: c :: d :: e :: f :: g :: h :: rest => by
    have ih := chunks8_len rest
    simp only [BitVec.chunks8, List.length_cons]
    omega

/-- Counterexample to C7 as stated: from_bytes accepts a bit length with no
backing bytes and the invariant fails. -/
theorem C7_counterexample : ¬ wf (BitVec.from_bytes [] 100) := by decide

/-- C7 (amended): every constructor except from_bytes establishes the
invariant len at most 8 times the byte count, push, set and toggle preserve
it, and from_bytes satisfies it exactly when the supplied bit length is at
most 8 times the supplied byte count (neither from_bytes nor frame decode
checks this). -/
theorem C7_invariant_amended :
    wf BitVec.new ∧ (∀ n, wf (BitVec.zeros n)) ∧ (∀ n, wf (BitVec.ones n)) ∧
    (∀ l, wf (BitVec.from_vec l)) ∧ (∀ n, wf (BitVec.with_capacity n)) ∧
    (∀ bv bv2 : BitVec, ∀ b, wf bv → bv.push b = some bv2 → wf bv2) ∧
    (∀ bv bv2 : BitVec, ∀ i v r, bv.set i v = some (bv2, r) → wf bv → wf bv2) ∧
    (∀ bv bv2 : BitVec, ∀ i r, bv.toggle i = some (bv2, r) → wf bv → wf bv2) ∧
    (∀ bytes bl, wf (BitVec.from_bytes bytes bl) ↔ bl ≤ 8 * bytes.length) := by
  refine ⟨by decide, wf_zeros, ?_, ?_, wf_with_capacity, ?_, ?_, ?_, ?_⟩
  · intro n
    unfold wf BitVec.ones
    simp only [List.length_replicate]
    omega
  · intro l
    unfold wf BitVec.from_vec
    simp only [List.length_map]
    exact chunks8_len l
  · intro bv bv2 b hwfb hp
    obtain ⟨h1, h2⟩ := push_inv hp
    unfold wf at hwfb ⊢
    by_cases h8 : bv.len % 8 = 0 <;> simp [h8] at h2 <;> omega
  · intro bv bv2 i v r hs hwfb
    cases r with
    | error e =>
      rw [(set_error_inv hs).1]
      exact hwfb
    | ok u =>
      cases u
      obtain ⟨_, _, h3, h4, _⟩ := set_ok_inv hs
      unfold wf at hwfb ⊢
      omega
  · intro bv bv2 i r ht hwfb
    cases r with
    | error e =>
      rw [(toggle_error_inv ht).1]
      exact hwfb
    | ok u =>
      cases u
      obtain ⟨_, _, h3, h4, _⟩ := toggle_ok_inv ht
      unfold wf at hwfb ⊢
      omega
  · intro bytes bl
    unfold wf BitVec.from_bytes
    exact Iff.rfl

/-- Closed instance of the amended C7: pushing onto a well-formed vector
keeps the invariant. -/
theorem C7_witness : wf ⟨[128], 2⟩ :=
  C7_invariant_amended.2.2.2.2.2.1 (BitVec.from_vec [true]) ⟨[128], 2⟩ false
    (by decide) (by decide)

/-- Counterexample to C9 as stated: on a BitVec violating the storage
invariant (reachable through from_bytes), set with an in-range index panics
instead of succeeding or reporting IndexOutOfBounds. -/
theorem C9_counterexample :
    0 < (BitVec.from_bytes [] 5).len ∧
    BitVec.set (BitVec.from_bytes [] 5) 0 true = none ∧
    ∀ result, BitVec.set (BitVec.from_bytes [] 5) 0 true ≠ some result := by
  refine ⟨by decide, rfl, fun result h => ?_⟩
  rw [show BitVec.set (BitVec.from_bytes [] 5) 0 true = none from rfl] at h
  exact Option.noConfusion h

/-- C9 (amended): on every BitVec satisfying the storage invariant, get
returns the not-found signal exactly for indices at or beyond len and the
bit below len; set and toggle report IndexOutOfBounds exactly for indices at
or beyond len and succeed otherwise. -/
theorem C9_bounds_amended (bv : BitVec) (hwf : wf bv) (i : Nat) (v : Bool) :
    (bv.get i = some none ↔ bv.len ≤ i) ∧
    (i < bv.len → bv.get i = some (some (bitAt bv i))) ∧
    ((∃ p, bv.set i v = some p ∧ p.2 = Except.error BitVecError.IndexOutOfBounds) ↔
      bv.len ≤ i) ∧
    (i < bv.len → ∃ bv2, bv.set i v = some (bv2, Except.ok ())) ∧
    ((∃ p, bv.toggle i = some p ∧ p.2 = Except.error BitVecError.IndexOutOfBounds) ↔
      bv.len ≤ i) ∧
    (i < bv.len → ∃ bv2, bv.toggle i = some (bv2, Except.ok ())) := by
  refine ⟨⟨?_, fun h => get_oob h⟩, fun h => get_lt hwf h, ⟨?_, ?_⟩, ?_, ⟨?_, ?_⟩, ?_⟩
  · intro h
    by_contra hn
    rw [get_lt hwf (by omega)] at h
    simp at h
  · rintro ⟨p, hp, he⟩
    by_contra hn
    obtain ⟨bv2, hset, _, _, _⟩ := set_ok (i := i) v hwf (by omega)
    rw [hset] at hp
    have := Option.some.inj hp
    rw [← this] at he
    exact Except.noConfusion he
  · intro h
    exact ⟨(bv, Except.error BitVecError.IndexOutOfBounds), set_oob v h, rfl⟩
  · intro h
    obtain ⟨bv2, hset, _, _, _⟩ := set_ok v hwf h
    exact ⟨bv2, hset⟩
  · rintro ⟨p, hp, he⟩
    by_contra hn
    obtain ⟨bv2, htog, _, _, _⟩ := toggle_ok (i := i) hwf (by omega)
    rw [htog] at hp
    have := Option.some.inj hp
    rw [← this] at he
    exact Except.noConfusion he
  · intro h
    exact ⟨(bv, Except.error BitVecError.IndexOutOfBounds), toggle_oob h, rfl⟩
  · intro h
    obtain ⟨bv2, htog, _, _, _⟩ := toggle_ok hwf h
    exact ⟨bv2, htog⟩

/-- Closed instance of the amended C9 at a concrete vector and index. -/
theorem C9_witness :
    (BitVec.from_vec [true, false, true]).get 1 =
      some (some (bitAt (BitVec.from_vec [true, false, true]) 1)) ∧
    ∃ bv2, (BitVec.from_vec [true, false, true]).set 1 true =
      some (bv2, Except.ok ()) :=
  ⟨(C9_bounds_amended (BitVec.from_vec [true, false, true]) (by decide) 1 true).2.1
      (by decide),
    (C9_bounds_amended (BitVec.from_vec [true, false, true]) (by decide) 1 true).2.2.2.1
      (by decide)⟩

/-- C10: a successful set writes exactly the requested bit and preserves the
length and every other bit (as observed through get); a successful toggle
negates exactly the requested bit; a set or toggle that reports
IndexOutOfBounds leaves the vector unchanged. -/
theorem C10_frame_conditions (bv : BitVec) (i : Nat) (v : Bool) :
    (∀ bv2, bv.set i v = some (bv2, Except.ok ()) →
      bv2.len = bv.len ∧ bv2.get i = some (some v) ∧
      ∀ j, j ≠ i → bv2.get j = bv.get j) ∧
    (∀ bv2, bv.toggle i = some (bv2, Except.ok ()) →
      bv2.len = bv.len ∧
      (∃ b, bv.get i = some (some b) ∧ bv2.get i = some (some (!b))) ∧
      ∀ j, j ≠ i → bv2.get j = bv.get j) ∧
    (∀ bv2 e, bv.set i v = some (bv2, Except.error e) → bv2 = bv) ∧
    (∀ bv2 e, bv.toggle i = some (bv2, Except.error e) → bv2 = bv) := by
  refine ⟨?_, ?_, fun bv2 e h => (set_error_inv h).1, fun bv2 e h => (toggle_error_inv h).1⟩
  · intro bv2 h
    obtain ⟨hi, hb, hlen, hdl, hform⟩ := set_ok_inv h
    refine ⟨hlen, ?_, ?_⟩
    · rw [get_of_byte (by omega) (by omega), hform i, if_pos rfl]
    · intro j hj
      by_cases hjl : bv.len ≤ j
      · rw [get_oob hjl, get_oob (by omega)]
      · by_cases hjb : j / 8 < bv.data.length
        · rw [get_of_byte (by omega) (by omega), get_of_byte (by omega) hjb,
            hform j, if_neg hj]
        · rw [get_panic_of_nobyte (by omega) (by omega),
            get_panic_of_nobyte (by omega) (by omega)]
  · intro bv2 h
    obtain ⟨hi, hb, hlen, hdl, hform⟩ := toggle_ok_inv h
    refine ⟨hlen, ?_, ?_⟩
    · refine ⟨bitAt bv i, get_of_byte hi hb, ?_⟩
      rw [get_of_byte (by omega) (by omega), hform i, if_pos rfl]
    · intro j hj
      by_cases hjl : bv.len ≤ j
      · rw [get_oob hjl, get_oob (by omega)]
      · by_cases hjb : j / 8 < bv.data.length
        · rw [get_of_byte (by omega) (by omega), get_of_byte (by omega) hjb,
            hform j, if_neg hj]
        · rw [get_panic_of_nobyte (by omega) (by omega),
            get_panic_of_nobyte (by omega) (by omega)]

/-- Closed instance of C10: setting bit 1 of 1,0,1 leaves bits 0 and 2 and
the length unchanged. -/
theorem C10_witness :
    ∃ bv2, (BitVec.from_vec [true, false, true]).set 1 true =
      some (bv2, Except.ok ()) ∧
    bv2.len = (BitVec.from_vec [true, false, true]).len ∧
    bv2.get 0 = (BitVec.from_vec [true, false, true]).get 0 ∧
    bv2.get 2 = (BitVec.from_vec [true, false, true]).get 2 := by
  refine ⟨⟨[224], 3⟩, by decide, ?_⟩
  have hc := (C10_frame_conditions (BitVec.from_vec [true, false, true]) 1 true).1
    ⟨[224], 3⟩ (by decide)
  exact ⟨hc.1, hc.2.2 0 (by decide), hc.2.2 2 (by decide)⟩

/-! ## Claim theorems for the GUS frame protocol -/

/-- C4 (failing input): encoding the empty bit sequence while the ambient
coin decides to corrupt panics inside random_range over the empty range
0..0, so the frame round trip cannot even start. -/
theorem C4_encode_empty_corruption_panics :
    GUSProtocol.encode (GUSProtocol.new (BitVec.from_vec [])) true 0 = none := rfl

/-- C5 (failing input): a valid header that declares one codeword byte while
none follows makes decode panic on the out-of-range slice, and the
DataLengthMismatch branch behind it can never answer. -/
theorem C5_decode_short_data_panics :
    GUSProtocol.decode ([71, 85, 83, 1] ++ leBytes 8 1 ++ leBytes 8 0) = none ∧
    GUSProtocol.decode ([71, 85, 83, 1] ++ leBytes 8 1 ++ leBytes 8 0) ≠
      some (Except.error GUSError.DataLengthMismatch) := by
  refine ⟨rfl, fun h => ?_⟩
  rw [show GUSProtocol.decode ([71, 85, 83, 1] ++ leBytes 8 1 ++ leBytes 8 0) = none
    from rfl] at h
  exact Option.noConfusion h

/-- Counterexample to C6 as stated: two runs of encode on the same protocol
value differ when the ambient RNG draws differ, so the output is not a
function of the explicit inputs alone (and the source offers no corruption
configuration input at all). -/
theorem C6_counterexample :
    GUSProtocol.encode (GUSProtocol.new (BitVec.from_vec [true])) false 0 ≠
      GUSProtocol.encode (GUSProtocol.new (BitVec.from_vec [true])) true 0 := by
  decide

/-- C6 (amended): encode is a pure function of the protocol value and the
two ambient RNG draws once those draws are made explicit; when the coin
declines to corrupt, the position draw is irrelevant and the output is the
fixed header followed by the Hamming codeword bytes, determined by the
protocol value alone. -/
theorem C6_encode_deterministic_amended (self : GUSProtocol) (p1 p2 : Nat) :
    GUSProtocol.encode self false p1 = GUSProtocol.encode self false p2 ∧
    ∀ cw, Hamming.encode self.data = some (Except.ok cw) →
      GUSProtocol.encode self false p1 =
        some (Except.ok (self.protocol_name ++ [self.version] ++
          (leBytes 8 cw.data.length ++ leBytes 8 cw.len) ++ cw.data)) := by
  refine ⟨rfl, fun cw henc => ?_⟩
  simp only [GUSProtocol.encode, henc, Bool.false_eq_true, if_false,
    Length.to_le_bytes, BitVec.true_len, BitVec.into_inner, USIZE_SIZE]

/-- Closed instance of the amended C6 at the one-bit data vector, whose
codeword is the byte 224 with bit length 3. -/
theorem C6_witness :
    GUSProtocol.encode (GUSProtocol.new (BitVec.from_vec [true])) false 0 =
      some (Except.ok ((GUSProtocol.new (BitVec.from_vec [true])).protocol_name ++
        [(GUSProtocol.new (BitVec.from_vec [true])).version] ++
        (leBytes 8 (BitVec.mk [224] 3).data.length ++
          leBytes 8 (BitVec.mk [224] 3).len) ++ (BitVec.mk [224] 3).data)) :=
  (C6_encode_deterministic_amended (GUSProtocol.new (BitVec.from_vec [true])) 0 1).2
    ⟨[224], 3⟩ (by decide)

set_option maxHeartbeats 1000000 in
/-- C8: decode rejects short buffers, wrong magic and wrong version, in that
order of precedence, each with its own error value, and the three error
values are pairwise distinct. -/
theorem C8_header_validation (buf : List Nat) :
    (buf.length < 4 + USIZE_SIZE * 2 →
      GUSProtocol.decode buf = some (Except.error GUSError.InvalidDataLength)) ∧
    (4 + USIZE_SIZE * 2 ≤ buf.length → buf.take 3 ≠ GUSProtocol.PROTOCOL_NAME →
      GUSProtocol.decode buf = some (Except.error GUSError.InvalidProtocolName)) ∧
    (4 + USIZE_SIZE * 2 ≤ buf.length → buf.take 3 = GUSProtocol.PROTOCOL_NAME →
      buf.getD 3 0 ≠ GUSProtocol.CURRENT_VERSION →
      GUSProtocol.decode buf = some (Except.error GUSError.UnsupportedVersion)) ∧
    GUSError.InvalidDataLength ≠ GUSError.InvalidProtocolName ∧
    GUSError.InvalidDataLength ≠ GUSError.UnsupportedVersion ∧
    GUSError.InvalidProtocolName ≠ GUSError.UnsupportedVersion := by
  refine ⟨?_, ?_, ?_, by decide, by decide, by decide⟩
  · intro h
    simp only [GUSProtocol.decode, if_pos h]
  · intro h1 h2
    simp only [GUSProtocol.decode, if_neg (by omega : ¬ buf.length < 4 + USIZE_SIZE * 2),
      if_pos h2]
  · intro h1 h2 h3
    simp only [GUSProtocol.decode, if_neg (by omega : ¬ buf.length < 4 + USIZE_SIZE * 2),
      if_neg (show ¬ buf.take 3 ≠ GUSProtocol.PROTOCOL_NAME from fun hn => hn h2),
      if_pos h3]

/-- Closed instance of C8 at three concrete malformed buffers. -/
theorem C8_witness :
    GUSProtocol.decode [] = some (Except.error GUSError.InvalidDataLength) ∧
    GUSProtocol.decode ([70, 85, 83, 1] ++ leBytes 8 0 ++ leBytes 8 0) =
      some (Except.error GUSError.InvalidProtocolName) ∧
    GUSProtocol.decode ([71, 85, 83, 2] ++ leBytes 8 0 ++ leBytes 8 0) =
      some (Except.error GUSError.UnsupportedVersion) :=
  ⟨(C8_header_validation []).1 (by decide),
    (C8_header_validation _).2.1 (by decide) (by decide),
    (C8_header_validation _).2.2.1 (by decide) (by decide) (by decide)⟩

/-! ## Supporting development: the frame round trip in the non-panicking
cases (the only failing case of the C4 round trip is the empty codeword with
the corruption coin drawn, which panics, see C4_encode_empty_corruption_panics). -/

theorem fillData_inv {data : BitVec} : ∀ {l : List Nat} {cw : BitVec} {di : Nat}
    {cw2 : BitVec}, Hamming.fillData data l cw di = some (Except.ok cw2) →
    cw2.data.length = cw.data.length ∧ cw2.len = cw.len := by
  intro l
  induction l with
  | nil =>
    intro cw di cw2 h
    rw [Hamming.fillData] at h
    have := Except.ok.inj (Option.some.inj h)
    rw [← this]
    exact ⟨rfl, rfl⟩
  | cons i rest ih =>
    intro cw di cw2 h
    by_cases hp : Hamming.isPowerOfTwo (i + 1) = true
    · rw [fillData_cons_pow hp] at h
      exact ih h
    · rcases hg : data.get di with _ | og
      · simp only [Hamming.fillData, hp, Bool.false_eq_true, if_false, hg] at h
        exact Option.noConfusion h
      · rcases og with _ | b
        · simp only [Hamming.fillData, hp, Bool.false_eq_true, if_false, hg] at h
          exact Except.noConfusion (Option.some.inj h)
        · rcases hs : cw.set i b with _ | p
          · simp only [Hamming.fillData, hp, Bool.false_eq_true, if_false, hg, hs] at h
            exact Option.noConfusion h
          · rcases p with ⟨cw3, r⟩
            rcases r with e | u
            · simp only [Hamming.fillData, hp, Bool.false_eq_true, if_false, hg, hs] at h
              exact Except.noConfusion (Option.some.inj h)
            · cases u
              rw [fillData_cons_data hp hg hs] at h
              obtain ⟨h1, h2⟩ := ih h
              obtain ⟨_, _, hl, hd, _⟩ := set_ok_inv hs
              omega

theorem fillParity_inv : ∀ {l : List Nat} {cw cw2 : BitVec},
    Hamming.fillParity l cw = some (Except.ok cw2) →
    cw2.data.length = cw.data.length ∧ cw2.len = cw.len := by
  intro l
  induction l with
  | nil =>
    intro cw cw2 h
    rw [Hamming.fillParity] at h
    have := Except.ok.inj (Option.some.inj h)
    rw [← this]
    exact ⟨rfl, rfl⟩
  | cons i rest ih =>
    intro cw cw2 h
    rcases hq : Hamming.basic_compute_parity cw (1 <<< i) with _ | oq
    · simp only [Hamming.fillParity, hq] at h
      exact Option.noConfusion h
    · rcases oq with e | q
      · simp only [Hamming.fillParity, hq] at h
        exact Except.noConfusion (Option.some.inj h)
      · rcases hs : cw.set ((1 <<< i) - 1) q with _ | p
        · simp only [Hamming.fillParity, hq, hs] at h
          exact Option.noConfusion h
        · rcases p with ⟨cw3, r⟩
          rcases r with e | u
          · simp only [Hamming.fillParity, hq, hs] at h
            exact Except.noConfusion (Option.some.inj h)
          · cases u
            rw [fillParity_cons_ok hq hs] at h
            obtain ⟨h1, h2⟩ := ih h
            obtain ⟨_, _, hl, hd, _⟩ := set_ok_inv hs
            omega

/-- The byte storage of an encoded codeword has exactly ceil((k+r)/8)
bytes: the zeros allocation fixes it and both loops only use set. -/
theorem encode_len_inv {data cw : BitVec}
    (h : Hamming.encode data = some (Except.ok cw)) :
    cw.data.length =
      (data.len + Hamming.calculate_parity_count data.len + 7) / 8 := by
  unfold Hamming.encode at h
  rcases hfd : Hamming.fillData data
      (List.range (data.len + Hamming.calculate_parity_count data.len))
      (BitVec.zeros (data.len + Hamming.calculate_parity_count data.len)) 0
      with _ | ofd
  · simp [hfd] at h
  · rcases ofd with e | cw1
    · simp [hfd] at h
    · simp only [hfd] at h
      obtain ⟨h1, _⟩ := fillParity_inv h
      obtain ⟨h2, _⟩ := fillData_inv hfd
      rw [h1, h2]
      simp [BitVec.zeros]

/-! Little-endian length fields round-trip below 2 to the 64. -/

theorem leBytes_length (w x : Nat) : (leBytes w x).length = w := by
  simp [leBytes]

theorem leBytes_getD {w i : Nat} (x : Nat) (h : i < w) :
    (leBytes w x).getD i 0 = x / 256 ^ i % 256 := by
  simp [leBytes, List.getElem?_map, List.getElem?_range h]

theorem sum_le_bytes (x : Nat) : ∀ w : Nat,
    ((List.range w).map (fun i => x / 256 ^ i % 256 * 256 ^ i)).sum = x % 256 ^ w := by
  intro w
  induction w with
  | zero => simp [Nat.mod_one]
  | succ w ih =>
    rw [List.range_succ, List.map_append, List.sum_append, ih]
    simp only [List.map_cons, List.map_nil, List.sum_cons, List.sum_nil]
    have h2 : (256 : Nat) ^ (w + 1) = 256 ^ w * 256 := by ring
    rw [h2, Nat.mod_mul]
    ring

theorem fromLE_leBytes {x : Nat} (h : x < 2 ^ 64) : fromLE (leBytes 8 x) = x := by
  unfold fromLE
  have hmap : (List.range 8).map (fun i => (leBytes 8 x).getD i 0 * 256 ^ i) =
      (List.range 8).map (fun i => x / 256 ^ i % 256 * 256 ^ i) :=
    List.map_congr_left (fun i hi => by rw [leBytes_getD x (List.mem_range.mp hi)])
  rw [hmap, sum_le_bytes x 8]
  have h256 : (256 : Nat) ^ 8 = 2 ^ 64 := by norm_num
  rw [h256, Nat.mod_eq_of_lt h]

set_option maxHeartbeats 1000000 in
/-- decode on a buffer whose header facts are given: it reaches the Hamming
stage with the reconstructed vector. -/
theorem decode_reduce (B D : List Nat) (tl bl : Nat)
    (h1 : ¬ B.length < 4 + USIZE_SIZE * 2)
    (h2 : B.take 3 = GUSProtocol.PROTOCOL_NAME)
    (h3 : B.getD 3 0 = GUSProtocol.CURRENT_VERSION)
    (h4 : Length.from_le_bytes ((B.drop 4).take (USIZE_SIZE * 2)) = ⟨tl, bl⟩)
    (h5 : ¬ B.length < 4 + USIZE_SIZE * 2 + tl)
    (h6 : (B.drop (4 + USIZE_SIZE * 2)).take tl = D)
    (h7 : D.length = tl) :
    GUSProtocol.decode B =
      match Hamming.decode (BitVec.from_bytes D bl) with
      | none => none
      | some (Except.error _) => some (Except.error GUSError.HammingDecodeFailed)
      | some (Except.ok dec) =>
        some (Except.ok (⟨GUSProtocol.PROTOCOL_NAME, GUSProtocol.CURRENT_VERSION, dec.1⟩,
          dec.2 != 0)) := by
  simp only [GUSProtocol.decode, if_neg h1,
    if_neg (show ¬ B.take 3 ≠ GUSProtocol.PROTOCOL_NAME from fun hne => hne h2),
    if_neg (show ¬ B.getD 3 0 ≠ GUSProtocol.CURRENT_VERSION from fun hne => hne h3),
    h4, if_neg (show ¬ B.length < 4 + USIZE_SIZE * 2 + (Length.mk tl bl).data_length
      from h5),
    h6, if_neg (show ¬ D.length ≠ (Length.mk tl bl).data_length from fun hne => hne h7),
    h2, h3]
  simp only [ne_eq, not_true_eq_false, if_false, Bool.false_eq_true]

/-- decode on the exact buffer shape the encoder emits. -/
theorem decode_wellFormed (D : List Nat) (bl : Nat) (htl : D.length < 2 ^ 64)
    (hbl : bl < 2 ^ 64) :
    GUSProtocol.decode (GUSProtocol.PROTOCOL_NAME ++ [GUSProtocol.CURRENT_VERSION] ++
        (leBytes 8 D.length ++ leBytes 8 bl) ++ D) =
      match Hamming.decode (BitVec.from_bytes D bl) with
      | none => none
      | some (Except.error _) => some (Except.error GUSError.HammingDecodeFailed)
      | some (Except.ok dec) =>
        some (Except.ok (⟨GUSProtocol.PROTOCOL_NAME, GUSProtocol.CURRENT_VERSION, dec.1⟩,
          dec.2 != 0)) := by
  set B := GUSProtocol.PROTOCOL_NAME ++ [GUSProtocol.CURRENT_VERSION] ++
    (leBytes 8 D.length ++ leBytes 8 bl) ++ D with hB
  have hBr : B = GUSProtocol.PROTOCOL_NAME ++ ([GUSProtocol.CURRENT_VERSION] ++
      ((leBytes 8 D.length ++ leBytes 8 bl) ++ D)) := by
    simp [hB, List.append_assoc]
  have hB4 : B = (GUSProtocol.PROTOCOL_NAME ++ [GUSProtocol.CURRENT_VERSION]) ++
      ((leBytes 8 D.length ++ leBytes 8 bl) ++ D) := by
    simp [hB, List.append_assoc]
  have hlen : B.length = 20 + D.length := by
    simp [hB, GUSProtocol.PROTOCOL_NAME, leBytes_length]
    omega
  have htake3 : B.take 3 = GUSProtocol.PROTOCOL_NAME := by
    rw [hBr]
    exact List.take_left' rfl
  have hgetD3 : B.getD 3 0 = GUSProtocol.CURRENT_VERSION := by
    rw [hBr]
    simp [List.getD_eq_getElem?_getD, GUSProtocol.PROTOCOL_NAME,
      List.getElem?_append_right]
  have hdrop4 : B.drop 4 = (leBytes 8 D.length ++ leBytes 8 bl) ++ D := by
    rw [hB4]
    exact List.drop_left' rfl
  have htake16 : (B.drop 4).take (USIZE_SIZE * 2) =
      leBytes 8 D.length ++ leBytes 8 bl := by
    rw [hdrop4]
    exact List.take_left' (by simp [leBytes_length, USIZE_SIZE])
  have hflb : Length.from_le_bytes ((B.drop 4).take (USIZE_SIZE * 2)) =
      ⟨D.length, bl⟩ := by
    rw [htake16]
    unfold Length.from_le_bytes
    have h1 : (leBytes 8 D.length ++ leBytes 8 bl).take USIZE_SIZE =
        leBytes 8 D.length :=
      List.take_left' (by simp [leBytes_length, USIZE_SIZE])
    have h2 : ((leBytes 8 D.length ++ leBytes 8 bl).drop USIZE_SIZE).take USIZE_SIZE =
        leBytes 8 bl := by
      rw [List.drop_left' (by simp [leBytes_length, USIZE_SIZE])]
      exact List.take_of_length_le (by simp [leBytes_length, USIZE_SIZE])
    rw [h1, h2, fromLE_leBytes htl, fromLE_leBytes hbl]
  have hdropD : (B.drop (4 + USIZE_SIZE * 2)).take D.length = D := by
    rw [hB]
    rw [List.drop_left' (by simp [GUSProtocol.PROTOCOL_NAME, leBytes_length, USIZE_SIZE])]
    exact List.take_length D
  exact decode_reduce B D D.length bl
    (by rw [hlen]; simp [USIZE_SIZE]) htake3 hgetD3 hflb
    (by rw [hlen]; simp [USIZE_SIZE]) hdropD rfl

/-- GUSProtocol::encode when the ambient coin declines to corrupt. -/
theorem gus_encode_noCorrupt {data cw : BitVec}
    (henc : Hamming.encode data = some (Except.ok cw)) (pos : Nat) :
    GUSProtocol.encode (GUSProtocol.new data) false pos =
      some (Except.ok (GUSProtocol.PROTOCOL_NAME ++ [GUSProtocol.CURRENT_VERSION] ++
        (leBytes 8 cw.data.length ++ leBytes 8 cw.len) ++ cw.data)) := by
  simp only [GUSProtocol.encode, GUSProtocol.new, henc, Bool.false_eq_true, if_false,
    Length.to_le_bytes, BitVec.true_len, BitVec.into_inner, USIZE_SIZE]

/-- GUSProtocol::encode when the coin corrupts a bit of a non-empty
codeword. -/
theorem gus_encode_corrupt {data cw cw2 : BitVec}
    (henc : Hamming.encode data = some (Except.ok cw))
    (hn : ¬ cw.len = 0) {pos : Nat} (htog : cw.toggle pos = some (cw2, Except.ok ())) :
    GUSProtocol.encode (GUSProtocol.new data) true pos =
      some (Except.ok (GUSProtocol.PROTOCOL_NAME ++ [GUSProtocol.CURRENT_VERSION] ++
        (leBytes 8 cw2.data.length ++ leBytes 8 cw2.len) ++ cw2.data)) := by
  simp only [GUSProtocol.encode, GUSProtocol.new, henc, if_true, if_neg hn, htog,
    Length.to_le_bytes, BitVec.true_len, BitVec.into_inner, USIZE_SIZE]

/-- The frame round trip in every non-panicking case: for any well-formed
data vector whose codeword is not astronomically long, encoding (with or
without an injected corruption at a position the RNG could draw) and then
decoding recovers the original bits, with the correction flag set exactly
when a corruption was injected. -/
theorem frame_roundTrip (data : BitVec) (hwf : wf data) (corrupt : Bool) (pos : Nat)
    (hsz : data.len + Hamming.calculate_parity_count data.len < 2 ^ 61)
    (hpos : corrupt = true →
      pos < data.len + Hamming.calculate_parity_count data.len) :
    ∃ bytes result,
      GUSProtocol.encode (GUSProtocol.new data) corrupt pos = some (Except.ok bytes) ∧
      GUSProtocol.decode bytes = some (Except.ok result) ∧
      bits result.1.data = bits data ∧ result.2 = corrupt := by
  obtain ⟨cw, henc, hlen, hwfc, _, hbitsc, hchkc⟩ := encode_spec hwf
  have hdlen : cw.data.length =
      (data.len + Hamming.calculate_parity_count data.len + 7) / 8 :=
    encode_len_inv henc
  have htl64 : cw.data.length < 2 ^ 64 := by
    have h61 : (2 : Nat) ^ 61 ≤ 2 ^ 64 := Nat.pow_le_pow_right (by omega) (by omega)
    omega
  have hbl64 : cw.len < 2 ^ 64 := by
    have h61 : (2 : Nat) ^ 61 ≤ 2 ^ 64 := Nat.pow_le_pow_right (by omega) (by omega)
    omega
  cases corrupt
  · obtain ⟨d, hdec, hdl2, _, _, hdb⟩ :=
      decode_valid (G := bitAt data) hwfc (checks_of_encode hlen hchkc) hbitsc
    have hfb : BitVec.from_bytes cw.data cw.len = cw := by
      cases cw
      rfl
    have hd := decode_wellFormed cw.data cw.len htl64 hbl64
    rw [hfb, hdec] at hd
    refine ⟨_, (⟨GUSProtocol.PROTOCOL_NAME, GUSProtocol.CURRENT_VERSION, d⟩, false),
      gus_encode_noCorrupt henc pos, ?_, bits_of_extract hlen hdl2 hdb, rfl⟩
    rw [hd]
    rfl
  · have hp := hpos rfl
    have hn0 : ¬ cw.len = 0 := by omega
    obtain ⟨cwBad, d, htog, hdec, hdl2, _, _, hdb⟩ :=
      decode_flip (G := bitAt data) hwfc (checks_of_encode hlen hchkc) hbitsc
        (p := pos + 1) (by omega) (by omega)
    rw [show pos + 1 - 1 = pos from rfl] at htog
    obtain ⟨_, _, hblen, hbdata, _⟩ := toggle_ok_inv htog
    have hfb : BitVec.from_bytes cwBad.data cwBad.len = cwBad := by
      cases cwBad
      rfl
    have hd := decode_wellFormed cwBad.data cwBad.len (by omega) (by omega)
    rw [hfb, hdec] at hd
    refine ⟨_, (⟨GUSProtocol.PROTOCOL_NAME, GUSProtocol.CURRENT_VERSION, d⟩, true),
      gus_encode_corrupt henc hn0 htog, ?_, bits_of_extract hlen hdl2 hdb, rfl⟩
    rw [hd]
    simp

end HammingRust
